import Mathlib

/-!
Verification of the joint ancestral-reconstruction engine of gubbins
(`src/python/gubbins/pyjar.py`) against its natural-language specification.

The Python source is shallowly embedded in Lean: pure numerical code becomes
functions over `ℚ`, or — for the reconstruction kernel, which only adds and
compares its float values — functions over an arbitrary linearly ordered
additive group `α` (instantiated at `ℤ` for concrete runs); the IEEE value
`float("-inf")` used by the dynamic program becomes `⊥ : WithBot α` (so
`⊥ + q = ⊥` and `⊥ < q`, matching `-inf` addition
and comparison for the finite/`-inf` values that actually occur); Python
exceptions (`KeyError`, `TypeError`, `IndexError`, and the `sys.exit` taken
when a taxon is missing) become `Except PyErr`.  Library calls that are not
part of this repository (`scipy.linalg.expm` composed with `numpy.log`, and
`math.log`) are taken as oracle parameters of the embedded functions.
-/

namespace Gubbins

/-- Python exceptions / aborts that the embedded code can raise. -/
inductive PyErr : Type where
  | keyError
  | typeError
  | indexError
  | unknownTaxon
  deriving DecidableEq

/-- The concrete-base alphabet `["A", "C", "G", "T"]` (`bases` /
`["A", "C", "G", "T"]` literals in the source). -/
def fourBases : List Char := ['A', 'C', 'G', 'T']

/-- `base_matrix` / `mb = {"A": 0, "C": 1, "G": 2, "T": 3}` from `jar`.
The Python dict raises on other keys; the source only ever applies it to
concrete bases, so the embedding totalises with an arbitrary value. -/
def mb (c : Char) : Fin 4 :=
  if c = 'A' then 0 else if c = 'C' then 1 else if c = 'G' then 2 else 3

/-- First-match association-list lookup (Python dict read). -/
def lookupS {α : Type} (m : List (String × α)) (k : String) : Option α :=
  match m with
  | [] => none
  | (k', v) :: rest => if k' = k then some v else lookupS rest k

/-! ## `create_rate_matrix` (pyjar.py lines 84-93) -/

/-- The `numpy.array` literal of pyjar.py line 86, before the diagonal is
normalised: row A is `[0, f0·r1, f0·r2, f0·r3]`, row C is
`[f1·r0, 0, f1·r3, f1·r4]`, row G is `[f2·r1, f2·r3, 0, f2·r5]`,
row T is `[f3·r2, f3·r4, f3·r5, 0]`. -/
def rate_matrix_offdiag (f : Fin 4 → ℚ) (r : Fin 6 → ℚ) : Fin 4 → Fin 4 → ℚ :=
  fun i j =>
    match i.val, j.val with
    | 0, 0 => 0         | 0, 1 => f 0 * r 1 | 0, 2 => f 0 * r 2 | 0, 3 => f 0 * r 3
    | 1, 0 => f 1 * r 0 | 1, 1 => 0         | 1, 2 => f 1 * r 3 | 1, 3 => f 1 * r 4
    | 2, 0 => f 2 * r 1 | 2, 1 => f 2 * r 3 | 2, 2 => 0         | 2, 3 => f 2 * r 5
    | 3, 0 => f 3 * r 2 | 3, 1 => f 3 * r 4 | 3, 2 => f 3 * r 5 | _, _ => 0

/-- `create_rate_matrix(f, r)`: build the off-diagonal matrix and then set
each diagonal entry to minus the sum of its row (pyjar.py lines 88-91; the
row sum there includes the still-zero diagonal entry). -/
def create_rate_matrix (f : Fin 4 → ℚ) (r : Fin 6 → ℚ) : Fin 4 → Fin 4 → ℚ :=
  fun i j =>
    if i = j then
      -(rate_matrix_offdiag f r i 0 + rate_matrix_offdiag f r i 1 +
        rate_matrix_offdiag f r i 2 + rate_matrix_offdiag f r i 3)
    else rate_matrix_offdiag f r i j

/-! ## `calculate_pij` (pyjar.py lines 45-49) -/

/-- `calculate_pij(branch_length, rate_matrix)`.  For branch length `0` the
source returns the plain identity matrix `numpy.array([[1,0,0,0], ...])`
(not its element-wise logarithm); otherwise it returns
`numpy.log(linalg.expm(branch_length * rate_matrix))`, which is a scipy/numpy
library composition and is passed in here as the oracle `logexpm`. -/
def calculate_pij (logexpm : ℚ → (Fin 4 → Fin 4 → ℚ) → (Fin 4 → Fin 4 → ℚ))
    (branch_length : ℚ) (rate_matrix : Fin 4 → Fin 4 → ℚ) : Fin 4 → Fin 4 → ℚ :=
  if branch_length = 0 then fun i j => if i = j then 1 else 0
  else logexpm branch_length rate_matrix

/-! ## `get_base_patterns` (pyjar.py lines 95-109) -/

/-- `alignment[:, x]`: the column vector of the alignment at index `x`, one
character per row in row order.  All rows of a real alignment have equal
length, so the default is never used on well-formed input. -/
def columnAt (aln : List (List Char)) (x : ℕ) : List Char :=
  aln.map (fun row => row.getD x '?')

/-- Append `x` to the bucket whose key is `p` (the `try:` branch of
`get_base_patterns`; the key is present exactly once). -/
def bucketAppend (bp : List (List Char × List ℕ)) (p : List Char) (x : ℕ) :
    List (List Char × List ℕ) :=
  bp.map (fun e => if e.1 = p then (e.1, e.2 ++ [x]) else e)

/-- First-match association-list lookup with list-of-chars keys. -/
def lookupP {α : Type} (m : List (List Char × α)) (k : List Char) : Option α :=
  match m with
  | [] => none
  | (k', v) :: rest => if k' = k then some v else lookupP rest k

/-- One iteration of the loop body of `get_base_patterns`: append `x` to the
bucket of its column's pattern, creating the bucket on `KeyError`. -/
def patternStep (aln : List (List Char)) (bp : List (List Char × List ℕ))
    (x : ℕ) : List (List Char × List ℕ) :=
  match lookupP bp (columnAt aln x) with
  | some _ => bucketAppend bp (columnAt aln x) x
  | none => bp ++ [(columnAt aln x, [x])]

/-- `get_base_patterns(alignment)`: fold the loop body over
`range(len(alignment[0]))`, starting from the empty dict. -/
def get_base_patterns (aln : List (List Char)) : List (List Char × List ℕ) :=
  (List.range (aln.headD []).length).foldl (patternStep aln) []

/-! ## `reconstruct_alignment_column` (pyjar.py lines 111-248)

The score type `α` stands for the Python floats holding log probabilities,
branch lengths and frequencies; `float("-inf")` becomes `⊥ : WithBot α`.
`math.log` enters as the oracle `logO`.  Python's set `columnbases` is
iterated in an unspecified (hash-dependent) order, so the embedding receives
that iteration order as the explicit list `cb`; `validOrder` says a list is
a possible iteration order of the set the source builds. -/

/-- The input tree: each node carries its taxon label, the length of the
edge to its parent, the per-branch matrix `node.pij` attached by `jar`
(meaningless at the seed node, whose `pij` the source never reads), and its
children.  A node with no children is a leaf. -/
inductive PTree (α : Type) : Type where
  | node (label : String) (edgeLength : α) (pij : Fin 4 → Fin 4 → α)
      (children : List (PTree α))

/-- A node after the post-order pass: `keys` is the key set of the Python
dicts `node.L` / `node.C` (all four bases at a leaf, `columnbases` at an
internal node), with the dicts themselves as total functions read only at
keys. -/
inductive ATree (α : Type) : Type where
  | node (label : String) (edgeLength : α) (keys : List Char)
      (L : Char → WithBot α) (C : Char → Option Char) (children : List (ATree α))

/-- A node after `r` assignment (`node.r` may be Python `None`). -/
inductive RTree (α : Type) : Type where
  | node (label : String) (edgeLength : α) (r : Option Char) (children : List (RTree α))

def ATree.label {α : Type} : ATree α → String
  | .node lbl _ _ _ _ _ => lbl

def ATree.keys {α : Type} : ATree α → List Char
  | .node _ _ ks _ _ _ => ks

def ATree.L {α : Type} : ATree α → Char → WithBot α
  | .node _ _ _ L _ _ => L

def ATree.C {α : Type} : ATree α → Char → Option Char
  | .node _ _ _ _ C _ => C

def ATree.children {α : Type} : ATree α → List (ATree α)
  | .node _ _ _ _ _ cs => cs

def ATree.edgeLength {α : Type} : ATree α → α
  | .node _ el _ _ _ _ => el

def RTree.label {α : Type} : RTree α → String
  | .node lbl _ _ _ => lbl

def RTree.r {α : Type} : RTree α → Option Char
  | .node _ _ r _ => r

def RTree.children {α : Type} : RTree α → List (RTree α)
  | .node _ _ _ cs => cs

def RTree.edgeLength {α : Type} : RTree α → α
  | .node _ el _ _ => el

/-- The labelled shape of a tree, shared by all its annotation stages. -/
inductive Skel : Type where
  | node (label : String) (children : List Skel)

mutual

/-- Post-order list of all labels of a skeleton
(`tree.postorder_node_iter()` order). -/
def skelAll : Skel → List String
  | .node lbl cs => skelAllList cs ++ [lbl]

/-- Post-order labels of a forest. -/
def skelAllList : List Skel → List String
  | [] => []
  | s :: ss => skelAll s ++ skelAllList ss

end

mutual

/-- Labels of the non-leaf nodes of a skeleton. -/
def skelInternal : Skel → List String
  | .node _ [] => []
  | .node lbl (c :: cs) => lbl :: skelInternalList (c :: cs)

/-- Internal labels of a forest. -/
def skelInternalList : List Skel → List String
  | [] => []
  | s :: ss => skelInternal s ++ skelInternalList ss

end

mutual

def PTree.skel {α : Type} : PTree α → Skel
  | .node lbl _ _ cs => .node lbl (PTree.skelList cs)

def PTree.skelList {α : Type} : List (PTree α) → List Skel
  | [] => []
  | t :: ts => PTree.skel t :: PTree.skelList ts

end

mutual

def ATree.skel {α : Type} : ATree α → Skel
  | .node lbl _ _ _ _ cs => .node lbl (ATree.skelList cs)

def ATree.skelList {α : Type} : List (ATree α) → List Skel
  | [] => []
  | t :: ts => ATree.skel t :: ATree.skelList ts

end

mutual

def RTree.skel {α : Type} : RTree α → Skel
  | .node lbl _ _ cs => .node lbl (RTree.skelList cs)

def RTree.skelList {α : Type} : List (RTree α) → List Skel
  | [] => []
  | t :: ts => RTree.skel t :: RTree.skelList ts

end

/-- Apply the recorded writes of pyjar.py line 236 to an output alignment:
each `(label, ch)` write sets row `alignment_name_indices[label]` at every
column index in the pattern's bucket. -/
def applyWrites (idx : String → ℕ) (bucket : List ℕ) (aln : ℕ → ℕ → Option Char)
    (ws : List (String × Option Char)) : ℕ → ℕ → Option Char :=
  ws.foldl
    (fun a w => fun i j => if i = idx w.1 ∧ j ∈ bucket then w.2 else a i j)
    aln

/-- The `base` dict built on pyjar.py lines 118-120: taxon name of leaf `i`
(in alignment row order) maps to the column's character for that leaf.  The
column has one entry per leaf and `names` lists the leaves first (internal
names are appended after them by `jar`), so zipping pairs every column
character with its leaf name exactly as `enumerate(column)` does. -/
def buildBase (names : List String) (column : List Char) : List (String × Char) :=
  names.zip column

/-- `cb` is a possible iteration order of the Python set `columnbases`
built on lines 117-122: the distinct concrete bases occurring in the
column. -/
def validOrder (column : List Char) (cb : List Char) : Prop :=
  cb.Nodup ∧ ∀ c, c ∈ cb ↔ c ∈ column ∧ c ∈ fourBases

/-- `child.r in bases`, with Python `None` never a concrete base. -/
def isConcrete (r : Option Char) : Bool :=
  match r with
  | some c => fourBases.contains c
  | none => false

section Reconstruction

variable {α : Type} [LinearOrderedAddCommGroup α]

/-- `c = 0.0; for child in node.child_node_iter(): c += child.L[end]`
(pyjar.py lines 169-171 and 186-188). -/
def sumL (anns : List (ATree α)) (endb : Char) : WithBot α :=
  anns.foldl (fun c a => c + a.L endb) 0

/-- The body of the inner `for start in columnbases` loop (pyjar.py lines
172-178): update `(L, C)` at `start` when `j = sc start endb` strictly
beats `L[start]`. -/
def relaxStep (sc : Char → Char → WithBot α) (endb : Char)
    (lc : (Char → WithBot α) × (Char → Option Char)) (start : Char) :
    (Char → WithBot α) × (Char → Option Char) :=
  if lc.1 start < sc start endb then
    (fun b => if b = start then sc start endb else lc.1 b,
     fun b => if b = start then some endb else lc.2 b)
  else lc

/-- The relaxation double loop of pyjar.py lines 164-178 (and, with the
root's score, lines 182-194): initialise `L` to `-inf` and `C` to `None` on
`columnbases`, then run the update for each `end` and each `start`. -/
def relaxLoop (sc : Char → Char → WithBot α) (cb : List Char) :
    (Char → WithBot α) × (Char → Option Char) :=
  cb.foldl (fun lc endb => cb.foldl (relaxStep sc endb) lc)
    (fun _ => ⊥, fun _ => none)

/-- The maximum of a list of scores, `-inf` when empty (the running maximum
the source's strict-improvement loop computes). -/
def listMax (l : List (WithBot α)) : WithBot α := l.foldl max ⊥

/-- `max_root_base` selection, pyjar.py lines 196-203: scan `columnbases`
keeping the first strict improvement of `node.L[root_base]`, and return the
`node.C` value of the winner. -/
def rootPick (cb : List Char) (lc : (Char → WithBot α) × (Char → Option Char)) :
    Option Char :=
  (cb.foldl
    (fun best rb => if best.2 < lc.1 rb then (lc.2 rb, lc.1 rb) else best)
    ((none : Option Char), (⊥ : WithBot α))).1

mutual

/-- The post-order visit of one non-root node (pyjar.py lines 133-178):
leaves get the dicts of lines 144-151 (`KeyError` on a taxon missing from
`base` aborts the run, lines 153-155); internal nodes get the relaxation of
lines 157-178 over their already-visited children.  Line 140 strips
surrounding quote characters from the dendropy label before the lookup — a
no-op for the unquoted labels `preserve_underscores=True` produces, so the
embedding uses the label as-is. -/
def annNode (base : List (String × Char)) (cb : List Char) :
    PTree α → Except PyErr (ATree α)
  | .node lbl el pij children =>
    match children with
    | [] =>
      match lookupS base lbl with
      | none => .error .unknownTaxon
      | some y =>
        if y ∈ fourBases then
          .ok (.node lbl el fourBases
            (fun i => ((pij (mb i) (mb y) : α) : WithBot α)) (fun _ => some y) [])
        else
          .ok (.node lbl el fourBases
            (fun i => ((pij (mb i) (mb i) : α) : WithBot α)) (fun i => some i) [])
    | c :: cs => do
      let anns ← annList base cb (c :: cs)
      let lc := relaxLoop
        (fun start endb => ((pij (mb start) (mb endb) : α) : WithBot α) + sumL anns endb) cb
      .ok (.node lbl el cb lc.1 lc.2 anns)

/-- Post-order over a child list, left to right. -/
def annList (base : List (String × Char)) (cb : List Char) :
    List (PTree α) → Except PyErr (List (ATree α))
  | [] => .ok []
  | t :: ts => do
    let a ← annNode base cb t
    let rest ← annList base cb ts
    .ok (a :: rest)

end

mutual

/-- The pre-order reconstruction of pyjar.py lines 206-214 for a non-root
node whose parent carries `parentR`: Python evaluates `node.C[i]` with
`i = node.parent_node.r`, raising `KeyError` when `i` is `None` (never a
dict key) or not among the node's keys. -/
def assignR (parentR : Option Char) : ATree α → Except PyErr (RTree α)
  | .node lbl el keys _ C children =>
    match parentR with
    | none => .error .keyError
    | some i =>
      if i ∈ keys then do
        let rcs ← assignRList (C i) children
        .ok (.node lbl el (C i) rcs)
      else .error .keyError

/-- Pre-order over siblings, each with the same parent `r`. -/
def assignRList (r : Option Char) : List (ATree α) → Except PyErr (List (RTree α))
  | [] => .ok []
  | t :: ts => do
    let rt ← assignR r t
    let rts ← assignRList r ts
    .ok (rt :: rts)

end

/-- Comparison of two Python lists `[edge_length, child, child.r]` during
`rootlens.sort()` (pyjar.py line 220): equal edge lengths fall through to
comparing two distinct dendropy `Node` objects, which raises `TypeError`;
distinct edge lengths decide the comparison. -/
def pyListLt (x y : α × ℕ × Option Char) : Except PyErr Bool :=
  if x.1 = y.1 then .error .typeError else .ok (x.1 < y.1)

/-- Insert into a sorted prefix using the Python list comparison. -/
def insertTri (x : α × ℕ × Option Char) :
    List (α × ℕ × Option Char) → Except PyErr (List (α × ℕ × Option Char))
  | [] => .ok [x]
  | y :: ys => do
    let b ← pyListLt x y
    if b then .ok (x :: y :: ys)
    else do
      let zs ← insertTri x ys
      .ok (y :: zs)

/-- `rootlens.sort()` as an insertion sort over the failing comparator
(the sorted result and the raised error agree with Python's sort whenever
the comparisons it makes are the deciding ones). -/
def sortTri : List (α × ℕ × Option Char) → Except PyErr (List (α × ℕ × Option Char))
  | [] => .ok []
  | x :: xs => do
    let s ← sortTri xs
    insertTri x s

/-- pyjar.py lines 217-221: sort the triples `[edge_length, child, r]` of
the seed's children and adopt the `r` of the last one (`IndexError` on an
empty list, `TypeError` from the sort on tied edge lengths). -/
def seedTiebreak (rootlens : List (α × ℕ × Option Char)) : Except PyErr (Option Char) := do
  let sorted ← sortTri rootlens
  match sorted.getLast? with
  | none => .error .indexError
  | some t => .ok t.2.2

mutual

/-- The gap-propagation and emission post-order of pyjar.py lines 225-236:
a leaf resets `r` to its observed character (`base[node.taxon.label]`, an
uncaught `KeyError` if absent); an internal node becomes `'-'` when no child
has a concrete base, and its row write `(label, r)` is recorded. -/
def gapNode (base : List (String × Char)) :
    RTree α → Except PyErr (RTree α × List (String × Option Char))
  | .node lbl el r children =>
    match children with
    | [] =>
      match lookupS base lbl with
      | none => .error .keyError
      | some y => .ok (.node lbl el (some y) [], [])
    | c :: cs => do
      let res ← gapList base (c :: cs)
      let r' := if res.1.any (fun ch => isConcrete ch.r) then r else some '-'
      .ok (.node lbl el r' res.1, res.2 ++ [(lbl, r')])

/-- Post-order gap propagation over a child list. -/
def gapList (base : List (String × Char)) :
    List (RTree α) → Except PyErr (List (RTree α) × List (String × Option Char))
  | [] => .ok ([], [])
  | t :: ts => do
    let gw ← gapNode base t
    let rest ← gapList base ts
    .ok (gw.1 :: rest.1, gw.2 ++ rest.2)

end

mutual

/-- Labels of the nodes in post-order (`tree.postorder_node_iter()`). -/
def postLabels {α : Type} : RTree α → List String
  | .node lbl _ _ children => postLabelsList children ++ [lbl]

/-- Post-order labels of a forest. -/
def postLabelsList {α : Type} : List (RTree α) → List String
  | [] => []
  | t :: ts => postLabels t ++ postLabelsList ts

end

/-- `node_snps = {node.taxon.label: 0 for node in tree.postorder_node_iter()}`
(pyjar.py line 239); a dict keeps one entry per distinct label. -/
def snpDict (ls : List String) : List (String × ℕ) :=
  ls.foldl
    (fun m l =>
      match lookupS m l with
      | some _ => m
      | none => m ++ [(l, 0)])
    []

/-- `node_snps[label] += amt` on the unique entry with that key. -/
def bumpN (m : List (String × ℕ)) (l : String) (amt : ℕ) : List (String × ℕ) :=
  m.map (fun e => if e.1 = l then (e.1, e.2 + amt) else e)

mutual

/-- The SNP-recording pre-order of pyjar.py lines 241-246: a node whose `r`
and parent's `r` are distinct concrete bases adds the bucket size to its
label's count; the root (`parentR = none`) is skipped by the
`AttributeError` handler. -/
def snpNode (bl : ℕ) (parentR : Option (Option Char)) (m : List (String × ℕ)) :
    RTree α → List (String × ℕ)
  | .node lbl _ r children =>
    let m1 :=
      match parentR with
      | none => m
      | some pr =>
        if isConcrete r && isConcrete pr && decide (r ≠ pr) then bumpN m lbl bl else m
    snpList bl (some r) m1 children

/-- Pre-order SNP recording over siblings. -/
def snpList (bl : ℕ) (parentR : Option (Option Char)) (m : List (String × ℕ)) :
    List (RTree α) → List (String × ℕ)
  | [] => m
  | t :: ts => snpList bl parentR (snpNode bl parentR m t) ts

end

/-- `reconstruct_alignment_column` (pyjar.py lines 111-248), for one pattern
`column` with bucket `bucket = base_patterns[column]` and set-iteration
order `cb` of `columnbases`.  dendropy's post-order iterator yields the seed
node last, so after the loop of lines 133-178 the variable `node` is the
seed: lines 180-203 (embedded as `relaxLoop`/`rootPick` over the seed's
children) always apply to it.  Returns the `node_snps` map together with the
list of `(row label, character)` writes made into the shared output
alignment on line 236. -/
def reconstruct_alignment_column (logO : α → α) (tree : PTree α)
    (names : List String) (bucket : List ℕ) (f : Fin 4 → α)
    (column : List Char) (cb : List Char) :
    Except PyErr (List (String × ℕ) × List (String × Option Char)) :=
  match tree with
  | .node rootLbl rootEl _ children => do
    let base := buildBase names column
    let anns ← annList base cb children
    let rootLC := relaxLoop
      (fun _ endb => ((logO (f (mb endb)) : α) : WithBot α) + sumL anns endb) cb
    let rootR := rootPick cb rootLC
    let rts ← assignRList rootR anns
    let rootlens := rts.enum.map (fun p => (p.2.edgeLength, p.1, p.2.r))
    let seedR ← seedTiebreak rootlens
    let res ← gapNode base (.node rootLbl rootEl seedR rts)
    .ok (snpNode bucket.length none (snpDict (postLabels res.1)) res.1, res.2)

end Reconstruction

deriving instance DecidableEq for Except

/-! ## Concrete instances used to evaluate the embedded code

The score type is instantiated at `ℤ` (a kernel-computable instance of the
ordered additive group of float values); `pijConst` is an all-zero log
matrix and `pijDiag` a matrix preferring identical states (`0` on the
diagonal, `-1` off it). -/

def pijConst : Fin 4 → Fin 4 → ℤ := fun _ _ => 0

def pijDiag : Fin 4 → Fin 4 → ℤ := fun i j => if i = j then 0 else -1

/-- Seed node with two leaf children `a` (edge 1) and `b` (edge 2). -/
def twoLeafTree : PTree ℤ :=
  .node "Node_1" 0 pijConst [.node "a" 1 pijDiag [], .node "b" 2 pijDiag []]

/-- Seed node with two leaf children whose edge lengths tie (both 1). -/
def tiedTree : PTree ℤ :=
  .node "Node_1" 0 pijConst [.node "a" 1 pijDiag [], .node "b" 1 pijDiag []]

/-- Seed with a single internal child `Node_2` over leaves `a` and `b`:
the zero matrix on the `Node_2` edge makes the root relaxation tie between
the bases of the two leaves. -/
def chainTree : PTree ℤ :=
  .node "Node_1" 0 pijConst
    [.node "Node_2" 1 pijConst [.node "a" 1 pijDiag [], .node "b" 2 pijDiag []]]

/-- Leaf `a` (edge 1) with the diagonal-preferring matrix. -/
def demoLeafA : PTree ℤ := .node "a" 1 pijDiag []

/-- Leaf `b` (edge 2) with the diagonal-preferring matrix. -/
def demoLeafB : PTree ℤ := .node "b" 2 pijDiag []

/-- The `base` dict of the column `['A', 'C']` over taxa `a`, `b`. -/
def demoBase : List (String × Char) := [("a", 'A'), ("b", 'C')]

/-- The post-order annotation of the internal node
`Node_2 = (a, b)` on the column `['A', 'C']`. -/
def demoAnnA : ATree ℤ :=
  ((annNode demoBase ['A', 'C'] (PTree.node "Node_2" 1 pijConst
    [demoLeafA, demoLeafB])).toOption).get (by decide)

/-- A constant score function with a tie on every base. -/
def demoSc : Char → Char → WithBot ℤ := fun _ _ => ((-1 : ℤ) : WithBot ℤ)

/-! ## Invariants of `get_base_patterns` -/

/-- The invariant maintained by the pattern-compression loop after the first
`n` columns: bucket keys are distinct, and every bucket is nonempty, strictly
ascending, and holds only indices below `n` whose column equals the key. -/
def goodBP (aln : List (List Char)) (n : ℕ) (bp : List (List Char × List ℕ)) : Prop :=
  (bp.map Prod.fst).Nodup ∧
    ∀ e ∈ bp, (∀ x ∈ e.2, x < n ∧ columnAt aln x = e.1) ∧
      e.2.Chain' (· < ·) ∧ e.2 ≠ []

/-- Coverage: every column index below `n` is in some bucket. -/
def coversBP (n : ℕ) (bp : List (List Char × List ℕ)) : Prop :=
  ∀ x, x < n → ∃ e ∈ bp, x ∈ e.2

theorem lookupP_some_mem {α : Type} {m : List (List Char × α)} {k : List Char} {v : α}
    (h : lookupP m k = some v) : (k, v) ∈ m := by
  induction m with
  | nil => simp [lookupP] at h
  | cons e rest ih =>
    rw [lookupP] at h
    by_cases hk : e.1 = k
    · simp only [hk, if_pos, Option.some.injEq] at h
      have : (k, v) = e := by
        rw [← hk, ← h]
      rw [this]
      exact List.mem_cons_self e rest
    · simp only [hk, if_neg, if_false] at h
      exact List.mem_cons_of_mem _ (ih h)

theorem lookupP_none {α : Type} {m : List (List Char × α)} {k : List Char}
    (h : lookupP m k = none) : ∀ e ∈ m, e.1 ≠ k := by
  induction m with
  | nil => simp
  | cons e rest ih =>
    rw [lookupP] at h
    by_cases hk : e.1 = k
    · simp [hk] at h
    · simp only [hk, if_neg, if_false] at h
      intro e' he'
      rcases List.mem_cons.mp he' with h1 | h2
      · rw [h1]; exact hk
      · exact ih h e' h2

theorem chain'_append_lt {l : List ℕ} {n : ℕ} (h : l.Chain' (· < ·))
    (h2 : ∀ y ∈ l, y < n) : (l ++ [n]).Chain' (· < ·) := by
  rw [List.chain'_append]
  refine ⟨h, List.chain'_singleton n, ?_⟩
  intro x hx y hy
  simp only [List.head?_cons, Option.mem_def, Option.some.injEq] at hy
  subst hy
  rcases List.mem_getLast?_eq_getLast hx with ⟨hne, hx'⟩
  exact hx' ▸ h2 _ (List.getLast_mem hne)

theorem patternStep_good (aln : List (List Char)) (n : ℕ) (bp : List (List Char × List ℕ))
    (hg : goodBP aln n bp) (hc : coversBP n bp) :
    goodBP aln (n + 1) (patternStep aln bp n) ∧ coversBP (n + 1) (patternStep aln bp n) := by
  obtain ⟨hnd, hent⟩ := hg
  cases hl : lookupP bp (columnAt aln n) with
  | some v =>
    have hstep : patternStep aln bp n = bucketAppend bp (columnAt aln n) n := by
      unfold patternStep
      rw [hl]
    rw [hstep]
    refine ⟨⟨?_, ?_⟩, ?_⟩
    · unfold bucketAppend
      have hkeys : ((bp.map (fun e => if e.1 = columnAt aln n then (e.1, e.2 ++ [n]) else e)).map
          Prod.fst) = bp.map Prod.fst := by
        rw [List.map_map]
        refine List.map_congr_left ?_
        intro e _
        by_cases h : e.1 = columnAt aln n <;> simp [h]
      rw [hkeys]
      exact hnd
    · intro e' he'
      unfold bucketAppend at he'
      rcases List.mem_map.mp he' with ⟨e, he, hfe⟩
      obtain ⟨hmem, hch, hne⟩ := hent e he
      by_cases h : e.1 = columnAt aln n
      · rw [if_pos h] at hfe
        subst hfe
        refine ⟨?_, ?_, by simp⟩
        · intro x hx
          rcases List.mem_append.mp hx with hx1 | hx2
          · exact ⟨Nat.lt_succ_of_lt (hmem x hx1).1, (hmem x hx1).2⟩
          · have hxn : x = n := by simpa using hx2
            subst hxn
            exact ⟨Nat.lt_succ_self x, h.symm⟩
        · exact chain'_append_lt hch (fun y hy => (hmem y hy).1)
      · rw [if_neg h] at hfe
        subst hfe
        exact ⟨fun x hx => ⟨Nat.lt_succ_of_lt (hmem x hx).1, (hmem x hx).2⟩, hch, hne⟩
    · intro x hx
      rcases Nat.lt_succ_iff_lt_or_eq.mp hx with hx1 | hx2
      · rcases hc x hx1 with ⟨e, he, hxe⟩
        refine ⟨if e.1 = columnAt aln n then (e.1, e.2 ++ [n]) else e, ?_, ?_⟩
        · exact List.mem_map.mpr ⟨e, he, rfl⟩
        · by_cases h : e.1 = columnAt aln n <;> simp [h, hxe]
      · subst hx2
        have hmem := lookupP_some_mem hl
        refine ⟨(columnAt aln x, v ++ [x]), ?_, by simp⟩
        unfold bucketAppend
        exact List.mem_map.mpr ⟨(columnAt aln x, v), hmem, by simp⟩
  | none =>
    have hstep : patternStep aln bp n = bp ++ [(columnAt aln n, [n])] := by
      unfold patternStep
      rw [hl]
    rw [hstep]
    have hknew := lookupP_none hl
    refine ⟨⟨?_, ?_⟩, ?_⟩
    · rw [List.map_append, List.nodup_append]
      refine ⟨hnd, by simp, ?_⟩
      intro k hk
      simp only [List.map_cons, List.map_nil, List.mem_singleton]
      intro hk'
      rcases List.mem_map.mp hk with ⟨e, he, hfe⟩
      exact hknew e he (hfe.trans hk')
    · intro e' he'
      rcases List.mem_append.mp he' with he1 | he2
      · obtain ⟨hmem, hch, hne⟩ := hent e' he1
        exact ⟨fun x hx => ⟨Nat.lt_succ_of_lt (hmem x hx).1, (hmem x hx).2⟩, hch, hne⟩
      · have he2' : e' = (columnAt aln n, [n]) := by simpa using he2
        subst he2'
        refine ⟨?_, by simp, by simp⟩
        intro x hx
        have hxn : x = n := by simpa using hx
        subst hxn
        exact ⟨Nat.lt_succ_self x, rfl⟩
    · intro x hx
      rcases Nat.lt_succ_iff_lt_or_eq.mp hx with hx1 | hx2
      · rcases hc x hx1 with ⟨e, he, hxe⟩
        exact ⟨e, List.mem_append_left _ he, hxe⟩
      · subst hx2
        exact ⟨(columnAt aln x, [x]), List.mem_append_right _ (by simp), by simp⟩

theorem patternFold_good (aln : List (List Char)) :
    ∀ n : ℕ, goodBP aln n ((List.range n).foldl (patternStep aln) []) ∧
      coversBP n ((List.range n).foldl (patternStep aln) []) := by
  intro n
  induction n with
  | zero => exact ⟨⟨by simp, by simp⟩, by intro x hx; omega⟩
  | succ n ih =>
    rw [List.range_succ, List.foldl_append, List.foldl_cons, List.foldl_nil]
    exact patternStep_good aln n _ ih.1 ih.2

/-! ## The relaxation loop computes a first-in-order argmax -/

section ArgmaxLemmas

variable {α : Type} [LinearOrderedAddCommGroup α]

theorem listMax_append (l : List (WithBot α)) (a : WithBot α) :
    listMax (l ++ [a]) = max (listMax l) a := by
  simp [listMax, List.foldl_append]

theorem foldl_max_facts (l : List (WithBot α)) :
    ∀ init : WithBot α, init ≤ l.foldl max init ∧ ∀ a ∈ l, a ≤ l.foldl max init := by
  induction l with
  | nil => intro init; exact ⟨le_refl _, by simp⟩
  | cons x xs ih =>
    intro init
    constructor
    · exact le_trans (le_max_left init x) (ih (max init x)).1
    · intro a ha
      rcases List.mem_cons.mp ha with rfl | ha'
      · exact le_trans (le_max_right init a) (ih (max init a)).1
      · exact (ih (max init x)).2 a ha'

theorem le_listMax {l : List (WithBot α)} {a : WithBot α} (h : a ∈ l) : a ≤ listMax l :=
  (foldl_max_facts l ⊥).2 a h

theorem foldl_max_mem (l : List (WithBot α)) :
    ∀ init : WithBot α, l.foldl max init = init ∨ l.foldl max init ∈ l := by
  induction l with
  | nil => intro init; exact Or.inl rfl
  | cons x xs ih =>
    intro init
    rcases ih (max init x) with h | h
    · rw [List.foldl_cons, h]
      rcases max_choice init x with h' | h'
      · exact Or.inl h'
      · rw [h']
        exact Or.inr (List.mem_cons_self x xs)
    · exact Or.inr (List.mem_cons_of_mem x h)

theorem listMax_attained {l : List Char} {f : Char → WithBot α}
    (h : listMax (l.map f) ≠ ⊥) : ∃ e ∈ l, f e = listMax (l.map f) := by
  rcases foldl_max_mem (l.map f) ⊥ with h' | h'
  · exact absurd h' h
  · rcases List.mem_map.mp h' with ⟨e, he, hfe⟩
    exact ⟨e, he, hfe⟩

theorem relaxFold_frame (sc : Char → Char → WithBot α) (endb : Char) (l : List Char) :
    ∀ (lc : (Char → WithBot α) × (Char → Option Char)) (s : Char), s ∉ l →
      (l.foldl (relaxStep sc endb) lc).1 s = lc.1 s ∧
        (l.foldl (relaxStep sc endb) lc).2 s = lc.2 s := by
  induction l with
  | nil => intro lc s _; exact ⟨rfl, rfl⟩
  | cons x xs ih =>
    intro lc s hs
    have hsx : s ≠ x := fun h => hs (h ▸ List.mem_cons_self x xs)
    have hs' : s ∉ xs := fun h => hs (List.mem_cons_of_mem _ h)
    have hstep : (relaxStep sc endb lc x).1 s = lc.1 s ∧
        (relaxStep sc endb lc x).2 s = lc.2 s := by
      unfold relaxStep
      by_cases h : lc.1 x < sc x endb
      · rw [if_pos h]
        exact ⟨by simp [hsx], by simp [hsx]⟩
      · rw [if_neg h]
        exact ⟨rfl, rfl⟩
    rw [List.foldl_cons]
    obtain ⟨h1, h2⟩ := ih (relaxStep sc endb lc x) s hs'
    exact ⟨h1.trans hstep.1, h2.trans hstep.2⟩

theorem relaxFold_at (sc : Char → Char → WithBot α) (endb : Char) {cb : List Char}
    (hnd : cb.Nodup) (lc : (Char → WithBot α) × (Char → Option Char)) {s : Char}
    (hs : s ∈ cb) :
    ((cb.foldl (relaxStep sc endb) lc).1 s, (cb.foldl (relaxStep sc endb) lc).2 s) =
      if lc.1 s < sc s endb then (sc s endb, some endb) else (lc.1 s, lc.2 s) := by
  obtain ⟨l1, l2, rfl⟩ := List.append_of_mem hs
  have hnd' := hnd
  rw [List.nodup_append] at hnd'
  have hs1 : s ∉ l1 := fun h => hnd'.2.2 h (List.mem_cons_self s l2)
  have hs2 : s ∉ l2 := (List.nodup_cons.mp hnd'.2.1).1
  rw [List.foldl_append, List.foldl_cons]
  obtain ⟨f1, f2⟩ := relaxFold_frame sc endb l1 lc s hs1
  set lc1 := l1.foldl (relaxStep sc endb) lc with hlc1
  obtain ⟨g1, g2⟩ := relaxFold_frame sc endb l2 (relaxStep sc endb lc1 s) s hs2
  rw [g1, g2]
  unfold relaxStep
  rw [f1]
  by_cases h : lc.1 s < sc s endb
  · rw [if_pos h, if_pos h]
    simp
  · rw [if_neg h, if_neg h, f1, f2]

theorem relaxLoop_at (sc : Char → Char → WithBot α) {cb : List Char}
    (hnd : cb.Nodup) {s : Char} (hs : s ∈ cb) :
    ((relaxLoop sc cb).1 s, (relaxLoop sc cb).2 s) =
      cb.foldl
        (fun p endb => if p.1 < sc s endb then (sc s endb, some endb) else p)
        ((⊥ : WithBot α), (none : Option Char)) := by
  unfold relaxLoop
  suffices h : ∀ (es : List Char) (lc : (Char → WithBot α) × (Char → Option Char)),
      ((es.foldl (fun lc endb => cb.foldl (relaxStep sc endb) lc) lc).1 s,
        (es.foldl (fun lc endb => cb.foldl (relaxStep sc endb) lc) lc).2 s) =
        es.foldl (fun p endb => if p.1 < sc s endb then (sc s endb, some endb) else p)
          (lc.1 s, lc.2 s) by
    exact h cb _
  intro es
  induction es with
  | nil => intro lc; rfl
  | cons e es ih =>
    intro lc
    rw [List.foldl_cons, List.foldl_cons, ih]
    rw [relaxFold_at sc e hnd lc hs]

theorem fold1_maxArg (f : Char → WithBot α) :
    ∀ (es seen : List Char) (p : WithBot α × Option Char),
      p.1 = listMax (seen.map f) →
      p.2 = seen.find? (fun e => decide (⊥ < f e ∧ f e = listMax (seen.map f))) →
      (es.foldl (fun p endb => if p.1 < f endb then (f endb, some endb) else p) p).1 =
          listMax ((seen ++ es).map f) ∧
        (es.foldl (fun p endb => if p.1 < f endb then (f endb, some endb) else p) p).2 =
          (seen ++ es).find?
            (fun e => decide (⊥ < f e ∧ f e = listMax ((seen ++ es).map f))) := by
  intro es
  induction es with
  | nil =>
    intro seen p h1 h2
    simp only [List.foldl_nil, List.append_nil]
    exact ⟨h1, h2⟩
  | cons e es ih =>
    intro seen p h1 h2
    rw [List.foldl_cons]
    have hassoc : seen ++ e :: es = (seen ++ [e]) ++ es := by simp
    rw [hassoc]
    have hM' : listMax ((seen ++ [e]).map f) = max (listMax (seen.map f)) (f e) := by
      rw [List.map_append, List.map_singleton, listMax_append]
    by_cases h : p.1 < f e
    · rw [if_pos h]
      apply ih (seen ++ [e])
      · rw [hM', ← h1]
        exact (max_eq_right (le_of_lt h)).symm
      · rw [hM', ← h1, max_eq_right (le_of_lt h)]
        rw [List.find?_append]
        have hnone : seen.find? (fun x => decide (⊥ < f x ∧ f x = f e)) = none := by
          rw [List.find?_eq_none]
          intro x hx
          simp only [decide_eq_true_eq, not_and]
          intro _ heq
          have hle : f x ≤ p.1 := h1 ▸ le_listMax (List.mem_map.mpr ⟨x, hx, rfl⟩)
          exact absurd heq (ne_of_lt (lt_of_le_of_lt hle h))
        have hpos : (fun x => decide (⊥ < f x ∧ f x = f e)) e = true := by
          simp only [decide_eq_true_eq]
          exact ⟨lt_of_le_of_lt (by simp) h, trivial⟩
        have hsingle : List.find? (fun x => decide (⊥ < f x ∧ f x = f e)) [e] = some e :=
          List.find?_cons_of_pos _ hpos
        rw [hnone, hsingle]
        rfl
    · rw [if_neg h]
      apply ih (seen ++ [e])
      · rw [hM', ← h1, max_eq_left (le_of_not_lt h)]
      · rw [hM', ← h1, max_eq_left (le_of_not_lt h), h1, h2]
        rw [List.find?_append]
        cases hfind : seen.find?
            (fun x => decide (⊥ < f x ∧ f x = listMax (seen.map f))) with
        | some w => rfl
        | none =>
          have hneg : ¬((fun x => decide (⊥ < f x ∧ f x = listMax (seen.map f))) e = true) := by
            simp only [decide_eq_true_eq, not_and]
            intro hbot heq
            have hex : ∃ x ∈ seen, f x = listMax (seen.map f) := by
              apply listMax_attained
              rw [← heq]
              exact ne_bot_of_gt hbot
            rcases hex with ⟨x, hx, hfx⟩
            have hnx := List.find?_eq_none.mp hfind x hx
            simp only [decide_eq_true_eq, not_and] at hnx
            exact hnx (hfx ▸ heq ▸ hbot) hfx
          have hsingle :
              List.find? (fun x => decide (⊥ < f x ∧ f x = listMax (seen.map f))) [e] =
                none := by
            rw [List.find?_eq_none]
            intro x hx
            have hxe : x = e := by simpa using hx
            subst hxe
            exact hneg
          rw [hsingle]
          rfl

theorem relaxLoop_max (sc : Char → Char → WithBot α) {cb : List Char}
    (hnd : cb.Nodup) {s : Char} (hs : s ∈ cb) :
    (relaxLoop sc cb).1 s = listMax (cb.map (sc s)) ∧
      (relaxLoop sc cb).2 s =
        cb.find? (fun e => decide (⊥ < sc s e ∧ sc s e = listMax (cb.map (sc s)))) := by
  have h := relaxLoop_at sc hnd hs
  have h2 := fold1_maxArg (sc s) cb [] ((⊥ : WithBot α), (none : Option Char))
    (by simp [listMax]) (by simp)
  simp only [List.nil_append] at h2
  constructor
  · have := congrArg Prod.fst h
    simpa using this.trans h2.1
  · have := congrArg Prod.snd h
    simpa using this.trans h2.2

end ArgmaxLemmas

/-! ## Finiteness of the dynamic-programming scores -/

theorem except_bind_ok {ε β γ : Type} (a : β) (f : β → Except ε γ) :
    (Except.ok a : Except ε β) >>= f = f a := rfl

theorem except_bind_error {ε β γ : Type} (e : ε) (f : β → Except ε γ) :
    (Except.error e : Except ε β) >>= f = .error e := rfl

theorem forall2_mem_right {β γ : Type} {R : β → γ → Prop} {ts : List β} {bs : List γ}
    (h : List.Forall₂ R ts bs) : ∀ x ∈ bs, ∃ t ∈ ts, R t x := by
  induction h with
  | nil => simp
  | cons hr _ ih =>
    intro x hx
    rcases List.mem_cons.mp hx with rfl | hx'
    · exact ⟨_, List.mem_cons_self _ _, hr⟩
    · rcases ih x hx' with ⟨t, ht, hrt⟩
      exact ⟨t, List.mem_cons_of_mem _ ht, hrt⟩

section FinitenessLemmas

variable {α : Type} [LinearOrderedAddCommGroup α]

theorem annList_ok {base : List (String × Char)} {cb : List Char} :
    ∀ {ts : List (PTree α)} {anns : List (ATree α)},
      annList base cb ts = .ok anns →
        List.Forall₂ (fun t a => annNode base cb t = .ok a) ts anns := by
  intro ts
  induction ts with
  | nil =>
    intro anns h
    rw [annList] at h
    cases h
    exact List.Forall₂.nil
  | cons t ts ih =>
    intro anns h
    rw [annList] at h
    cases ha : annNode (α := α) base cb t with
    | error e => rw [ha, except_bind_error] at h; cases h
    | ok a =>
      rw [ha, except_bind_ok] at h
      cases hrest : annList (α := α) base cb ts with
      | error e => rw [hrest, except_bind_error] at h; cases h
      | ok rest =>
        rw [hrest, except_bind_ok] at h
        cases h
        exact List.Forall₂.cons ha (ih hrest)

theorem foldl_add_ne_bot (l : List (WithBot α)) :
    ∀ init : WithBot α, init ≠ ⊥ → (∀ x ∈ l, x ≠ ⊥) →
      l.foldl (· + ·) init ≠ ⊥ := by
  induction l with
  | nil => intro init h _; exact h
  | cons x xs ih =>
    intro init hi h
    rw [List.foldl_cons]
    refine ih (init + x) ?_ (fun y hy => h y (List.mem_cons_of_mem _ hy))
    intro hcontra
    rcases WithBot.add_eq_bot.mp hcontra with h' | h'
    · exact hi h'
    · exact h x (List.mem_cons_self x xs) h'

theorem sumL_ne_bot (anns : List (ATree α)) (e : Char)
    (h : ∀ a ∈ anns, a.L e ≠ ⊥) : sumL anns e ≠ ⊥ := by
  unfold sumL
  rw [show (fun (c : WithBot α) (a : ATree α) => c + a.L e) =
      (fun c x => (· + ·) c ((fun a : ATree α => a.L e) x)) from rfl,
    ← List.foldl_map]
  refine foldl_add_ne_bot _ 0 (by simp) ?_
  intro x hx
  rcases List.mem_map.mp hx with ⟨a, ha, rfl⟩
  exact h a ha

omit [LinearOrderedAddCommGroup α] in
theorem ptree_sizeOf_child_lt {lbl : String} {el : α} {pij : Fin 4 → Fin 4 → α}
    {children : List (PTree α)} {c : PTree α} (hc : c ∈ children) :
    sizeOf c < sizeOf (PTree.node lbl el pij children) := by
  have h1 := List.sizeOf_lt_of_mem hc
  simp only [PTree.node.sizeOf_spec]
  omega

/-- Every `L` score produced by the post-order pass is finite at every base
of `columnbases`: leaves store (images of) the finite `pij` entries, and an
internal node's score is a maximum over sums of finite scores. -/
theorem annL_ne_bot (base : List (String × Char)) (cb : List Char)
    (hnd : cb.Nodup) :
    ∀ (n : ℕ) (t : PTree α) (a : ATree α), sizeOf t < n →
      annNode base cb t = .ok a → ∀ b ∈ cb, a.L b ≠ ⊥ := by
  intro n
  induction n with
  | zero => intro t a ht; exact absurd ht (Nat.not_lt_zero _)
  | succ m ih =>
    intro t a ht hok b hb
    cases t with
    | node lbl el pij children =>
      cases children with
      | nil =>
        cases hlook : lookupS base lbl with
        | none =>
          rw [annNode] at hok
          simp only [hlook] at hok
          cases hok
        | some y =>
          rw [annNode] at hok
          simp only [hlook] at hok
          by_cases hy : y ∈ fourBases
          · rw [if_pos hy] at hok
            cases hok
            exact WithBot.coe_ne_bot
          · rw [if_neg hy] at hok
            cases hok
            exact WithBot.coe_ne_bot
      | cons c cs =>
        rw [annNode] at hok
        cases hanns : annList (α := α) base cb (c :: cs) with
        | error e => rw [hanns, except_bind_error] at hok; cases hok
        | ok anns =>
          rw [hanns, except_bind_ok] at hok
          cases hok
          have hchild : ∀ x ∈ anns, ∀ b' ∈ cb, x.L b' ≠ ⊥ := by
            intro x hx b' hb'
            obtain ⟨t', ht', hrel⟩ := forall2_mem_right (annList_ok hanns) x hx
            have hsize : sizeOf t' < m := by
              have hlt : sizeOf t' < sizeOf (PTree.node lbl el pij (c :: cs)) :=
                ptree_sizeOf_child_lt ht'
              omega
            exact ih t' x hsize hrel b' hb'
          have hmax := (relaxLoop_max
            (fun start endb => ((pij (mb start) (mb endb) : α) : WithBot α) + sumL anns endb)
            hnd hb).1
          simp only [ATree.L]
          rw [hmax]
          have hne : cb ≠ [] := List.ne_nil_of_mem hb
          obtain ⟨e0, he0⟩ := List.exists_mem_of_ne_nil cb hne
          have hf : ((pij (mb b) (mb e0) : α) : WithBot α) + sumL anns e0 ≠ ⊥ := by
            have hsum : sumL anns e0 ≠ ⊥ :=
              sumL_ne_bot anns e0 (fun x hx => hchild x hx e0 he0)
            simp [WithBot.add_eq_bot, hsum]
          have hle : ((pij (mb b) (mb e0) : α) : WithBot α) + sumL anns e0 ≤
              listMax (cb.map
                (fun e => ((pij (mb b) (mb e) : α) : WithBot α) + sumL anns e)) :=
            le_listMax (List.mem_map.mpr ⟨e0, he0, rfl⟩)
          intro hcontra
          rw [hcontra, le_bot_iff] at hle
          exact hf hle

end FinitenessLemmas

/-! ## Shape preservation through the passes -/

section ShapeLemmas

variable {α : Type} [LinearOrderedAddCommGroup α]

theorem annSkel (base : List (String × Char)) (cb : List Char) :
    ∀ n : ℕ,
      (∀ (t : PTree α) (a : ATree α), sizeOf t < n → annNode base cb t = .ok a →
        a.skel = t.skel) ∧
      (∀ (ts : List (PTree α)) (anns : List (ATree α)), sizeOf ts < n →
        annList base cb ts = .ok anns → ATree.skelList anns = PTree.skelList ts) := by
  intro n
  induction n with
  | zero =>
    exact ⟨fun t a ht _ => absurd ht (Nat.not_lt_zero _),
      fun ts anns ht _ => absurd ht (Nat.not_lt_zero _)⟩
  | succ m ih =>
    constructor
    · intro t a ht hok
      cases t with
      | node lbl el pij children =>
        cases children with
        | nil =>
          rw [annNode] at hok
          cases hlook : lookupS base lbl with
          | none => simp only [hlook] at hok; cases hok
          | some y =>
            simp only [hlook] at hok
            by_cases hy : y ∈ fourBases
            · rw [if_pos hy] at hok; cases hok; rfl
            · rw [if_neg hy] at hok; cases hok; rfl
        | cons c cs =>
          rw [annNode] at hok
          cases hanns : annList (α := α) base cb (c :: cs) with
          | error e => rw [hanns, except_bind_error] at hok; cases hok
          | ok anns =>
            rw [hanns, except_bind_ok] at hok
            cases hok
            have hsz : sizeOf (c :: cs : List (PTree α)) < m := by
              simp only [PTree.node.sizeOf_spec] at ht
              omega
            simp only [ATree.skel, PTree.skel]
            rw [ih.2 (c :: cs) anns hsz hanns]
    · intro ts anns ht h
      cases ts with
      | nil => rw [annList] at h; cases h; rfl
      | cons t ts' =>
        rw [annList] at h
        cases ha : annNode (α := α) base cb t with
        | error e => rw [ha, except_bind_error] at h; cases h
        | ok a0 =>
          rw [ha, except_bind_ok] at h
          cases hrest : annList (α := α) base cb ts' with
          | error e => rw [hrest, except_bind_error] at h; cases h
          | ok rest =>
            rw [hrest, except_bind_ok] at h
            cases h
            have hsz1 : sizeOf t < m := by
              simp only [List.cons.sizeOf_spec] at ht
              omega
            have hsz2 : sizeOf ts' < m := by
              simp only [List.cons.sizeOf_spec] at ht
              omega
            simp only [ATree.skelList, PTree.skelList]
            rw [ih.1 t a0 hsz1 ha, ih.2 ts' rest hsz2 hrest]

omit [LinearOrderedAddCommGroup α] in
theorem assignSkel :
    ∀ n : ℕ,
      (∀ (at' : ATree α) (pr : Option Char) (rt : RTree α), sizeOf at' < n →
        assignR pr at' = .ok rt → rt.skel = at'.skel) ∧
      (∀ (ats : List (ATree α)) (r : Option Char) (rts : List (RTree α)),
        sizeOf ats < n → assignRList r ats = .ok rts →
          RTree.skelList rts = ATree.skelList ats) := by
  intro n
  induction n with
  | zero =>
    exact ⟨fun t pr rt ht _ => absurd ht (Nat.not_lt_zero _),
      fun ts r rts ht _ => absurd ht (Nat.not_lt_zero _)⟩
  | succ m ih =>
    constructor
    · intro at' pr rt ht hok
      cases at' with
      | node lbl el keys L C children =>
        cases pr with
        | none => rw [assignR] at hok; cases hok
        | some i =>
          rw [assignR] at hok
          by_cases hi : i ∈ keys
          · rw [if_pos hi] at hok
            cases hrcs : assignRList (α := α) (C i) children with
            | error e => rw [hrcs, except_bind_error] at hok; cases hok
            | ok rcs =>
              rw [hrcs, except_bind_ok] at hok
              cases hok
              have hsz : sizeOf children < m := by
                simp only [ATree.node.sizeOf_spec] at ht
                omega
              simp only [RTree.skel, ATree.skel]
              rw [ih.2 children (C i) rcs hsz hrcs]
          · rw [if_neg hi] at hok; cases hok
    · intro ats r rts ht h
      cases ats with
      | nil => rw [assignRList] at h; cases h; rfl
      | cons t ts' =>
        rw [assignRList] at h
        cases ha : assignR (α := α) r t with
        | error e => rw [ha, except_bind_error] at h; cases h
        | ok rt0 =>
          rw [ha, except_bind_ok] at h
          cases hrest : assignRList (α := α) r ts' with
          | error e => rw [hrest, except_bind_error] at h; cases h
          | ok rest =>
            rw [hrest, except_bind_ok] at h
            cases h
            have hsz1 : sizeOf t < m := by
              simp only [List.cons.sizeOf_spec] at ht
              omega
            have hsz2 : sizeOf ts' < m := by
              simp only [List.cons.sizeOf_spec] at ht
              omega
            simp only [RTree.skelList, ATree.skelList]
            rw [ih.1 t r rt0 hsz1 ha, ih.2 ts' r rest hsz2 hrest]

omit [LinearOrderedAddCommGroup α] in
theorem gapSkel (base : List (String × Char)) :
    ∀ n : ℕ,
      (∀ (rt : RTree α) (g : RTree α) (ws : List (String × Option Char)),
        sizeOf rt < n → gapNode base rt = .ok (g, ws) →
          g.skel = rt.skel ∧ ∀ w ∈ ws, w.1 ∈ skelInternal rt.skel) ∧
      (∀ (rts : List (RTree α)) (gs : List (RTree α)) (ws : List (String × Option Char)),
        sizeOf rts < n → gapList base rts = .ok (gs, ws) →
          RTree.skelList gs = RTree.skelList rts ∧
            ∀ w ∈ ws, w.1 ∈ skelInternalList (RTree.skelList rts)) := by
  intro n
  induction n with
  | zero =>
    exact ⟨fun t g ws ht _ => absurd ht (Nat.not_lt_zero _),
      fun ts gs ws ht _ => absurd ht (Nat.not_lt_zero _)⟩
  | succ m ih =>
    constructor
    · intro rt g ws ht hok
      cases rt with
      | node lbl el r children =>
        cases children with
        | nil =>
          rw [gapNode] at hok
          cases hlook : lookupS base lbl with
          | none => simp only [hlook] at hok; cases hok
          | some y =>
            simp only [hlook] at hok
            cases hok
            exact ⟨rfl, by simp⟩
        | cons c cs =>
          rw [gapNode] at hok
          cases hres : gapList (α := α) base (c :: cs) with
          | error e => rw [hres, except_bind_error] at hok; cases hok
          | ok res =>
            rw [hres, except_bind_ok] at hok
            cases hok
            have hsz : sizeOf (c :: cs : List (RTree α)) < m := by
              simp only [RTree.node.sizeOf_spec] at ht
              omega
            obtain ⟨hskel, hsub⟩ := ih.2 (c :: cs) res.1 res.2 hsz (by rw [hres])
            constructor
            · simp only [RTree.skel]
              rw [hskel]
            · intro w hw
              rcases List.mem_append.mp hw with hw1 | hw2
              · have hmem := hsub w hw1
                simp only [RTree.skel, RTree.skelList, skelInternal]
                simp only [RTree.skelList, skelInternalList] at hmem
                exact List.mem_cons_of_mem _ hmem
              · have hw' : w = (lbl, if res.1.any (fun ch => isConcrete ch.r) then r
                    else some '-') := by simpa using hw2
                subst hw'
                simp only [RTree.skel, RTree.skelList, skelInternal]
                exact List.mem_cons_self _ _
    · intro rts gs ws ht h
      cases rts with
      | nil =>
        rw [gapList] at h
        cases h
        exact ⟨rfl, by simp⟩
      | cons t ts' =>
        rw [gapList] at h
        cases ha : gapNode (α := α) base t with
        | error e => rw [ha, except_bind_error] at h; cases h
        | ok gw =>
          rw [ha, except_bind_ok] at h
          cases hrest : gapList (α := α) base ts' with
          | error e => rw [hrest, except_bind_error] at h; cases h
          | ok rest =>
            rw [hrest, except_bind_ok] at h
            cases h
            have hsz1 : sizeOf t < m := by
              simp only [List.cons.sizeOf_spec] at ht
              omega
            have hsz2 : sizeOf ts' < m := by
              simp only [List.cons.sizeOf_spec] at ht
              omega
            obtain ⟨hs1, hw1⟩ := ih.1 t gw.1 gw.2 hsz1 (by rw [ha])
            obtain ⟨hs2, hw2⟩ := ih.2 ts' rest.1 rest.2 hsz2 (by rw [hrest])
            constructor
            · simp only [RTree.skelList]
              rw [hs1, hs2]
            · intro w hw
              simp only [RTree.skelList, skelInternalList]
              rcases List.mem_append.mp hw with hwa | hwb
              · exact List.mem_append_left _ (hw1 w hwa)
              · exact List.mem_append_right _ (hw2 w hwb)

omit [LinearOrderedAddCommGroup α] in
theorem postLabels_skel :
    ∀ n : ℕ,
      (∀ t : RTree α, sizeOf t < n → postLabels t = skelAll t.skel) ∧
      (∀ ts : List (RTree α), sizeOf ts < n →
        postLabelsList ts = skelAllList (RTree.skelList ts)) := by
  intro n
  induction n with
  | zero =>
    exact ⟨fun t ht => absurd ht (Nat.not_lt_zero _),
      fun ts ht => absurd ht (Nat.not_lt_zero _)⟩
  | succ m ih =>
    constructor
    · intro t ht
      cases t with
      | node lbl el r children =>
        have hsz : sizeOf children < m := by
          simp only [RTree.node.sizeOf_spec] at ht
          omega
        simp only [postLabels, RTree.skel, skelAll]
        rw [ih.2 children hsz]
    · intro ts ht
      cases ts with
      | nil => rfl
      | cons t ts' =>
        have hsz1 : sizeOf t < m := by
          simp only [List.cons.sizeOf_spec] at ht
          omega
        have hsz2 : sizeOf ts' < m := by
          simp only [List.cons.sizeOf_spec] at ht
          omega
        simp only [postLabelsList, RTree.skelList, skelAllList]
        rw [ih.1 t hsz1, ih.2 ts' hsz2]

end ShapeLemmas

/-! ## The SNP map: keys, values, and the root entry -/

theorem lookupS_append {β : Type} (m1 m2 : List (String × β)) (k : String) :
    lookupS (m1 ++ m2) k =
      match lookupS m1 k with
      | some v => some v
      | none => lookupS m2 k := by
  induction m1 with
  | nil => simp [lookupS]
  | cons e rest ih =>
    rw [List.cons_append, lookupS, lookupS]
    by_cases hk : e.1 = k
    · simp [hk]
    · simp only [hk, if_neg, if_false]
      exact ih

theorem lookupS_mem_nodup {β : Type} {m : List (String × β)}
    (hnd : (m.map Prod.fst).Nodup) {p : String × β} (hp : p ∈ m) :
    lookupS m p.1 = some p.2 := by
  induction m with
  | nil => simp at hp
  | cons e rest ih =>
    rw [List.map_cons, List.nodup_cons] at hnd
    rcases List.mem_cons.mp hp with rfl | hp'
    · rw [lookupS]
      simp
    · rw [lookupS]
      have hne : e.1 ≠ p.1 := by
        intro hcontra
        exact hnd.1 (hcontra ▸ List.mem_map.mpr ⟨p, hp', rfl⟩)
      simp only [hne, if_neg, if_false]
      exact ih hnd.2 hp'

theorem bumpN_keys (m : List (String × ℕ)) (l : String) (amt : ℕ) :
    (bumpN m l amt).map Prod.fst = m.map Prod.fst := by
  unfold bumpN
  rw [List.map_map]
  refine List.map_congr_left ?_
  intro e _
  by_cases h : e.1 = l <;> simp [h]

theorem bumpN_lookup_ne {m : List (String × ℕ)} {l l' : String} (amt : ℕ)
    (h : l' ≠ l) : lookupS (bumpN m l amt) l' = lookupS m l' := by
  induction m with
  | nil => rfl
  | cons e rest ih =>
    unfold bumpN
    rw [List.map_cons]
    by_cases he : e.1 = l
    · rw [if_pos he, lookupS, lookupS]
      have hne : ¬e.1 = l' := by
        rw [he]
        exact fun hc => h hc.symm
      rw [if_neg hne, if_neg hne]
      exact ih
    · rw [if_neg he, lookupS, lookupS]
      by_cases hk : e.1 = l'
      · rw [if_pos hk, if_pos hk]
      · rw [if_neg hk, if_neg hk]
        exact ih

theorem bumpN_lookup_eq (m : List (String × ℕ)) (l : String) (amt : ℕ) :
    lookupS (bumpN m l amt) l = (lookupS m l).map (· + amt) := by
  induction m with
  | nil => rfl
  | cons e rest ih =>
    unfold bumpN
    rw [List.map_cons]
    by_cases he : e.1 = l
    · rw [if_pos he, lookupS, lookupS, if_pos he, if_pos he]
      rfl
    · rw [if_neg he, lookupS, lookupS, if_neg he, if_neg he]
      exact ih

theorem snpDict_invariant (ls : List String) :
    ∀ acc : List (String × ℕ), ls.Nodup → (∀ l ∈ ls, lookupS acc l = none) →
      ls.foldl
        (fun m l =>
          match lookupS m l with
          | some _ => m
          | none => m ++ [(l, 0)])
        acc = acc ++ ls.map (fun l => (l, 0)) := by
  induction ls with
  | nil => intro acc _ _; simp
  | cons l ls' ih =>
    intro acc hnd habs
    rw [List.foldl_cons]
    have hl : lookupS acc l = none := habs l (List.mem_cons_self l ls')
    rw [hl]
    rw [List.nodup_cons] at hnd
    have habs' : ∀ l' ∈ ls', lookupS (acc ++ [(l, 0)]) l' = none := by
      intro l' hl'
      rw [lookupS_append]
      rw [habs l' (List.mem_cons_of_mem _ hl')]
      have hne : l ≠ l' := fun hc => hnd.1 (hc ▸ hl')
      simp [lookupS, hne]
    rw [ih (acc ++ [(l, 0)]) hnd.2 habs']
    simp

theorem snpDict_of_nodup {ls : List String} (hnd : ls.Nodup) :
    snpDict ls = ls.map (fun l => (l, 0)) := by
  unfold snpDict
  rw [snpDict_invariant ls [] hnd (fun l _ => rfl)]
  simp

section SnpLemmas

variable {α : Type}

theorem snpKeys (bl : ℕ) :
    ∀ n : ℕ,
      (∀ (t : RTree α) (pr : Option (Option Char)) (m : List (String × ℕ)),
        sizeOf t < n → (snpNode bl pr m t).map Prod.fst = m.map Prod.fst) ∧
      (∀ (ts : List (RTree α)) (pr : Option (Option Char)) (m : List (String × ℕ)),
        sizeOf ts < n → (snpList bl pr m ts).map Prod.fst = m.map Prod.fst) := by
  intro n
  induction n with
  | zero =>
    exact ⟨fun t pr m ht => absurd ht (Nat.not_lt_zero _),
      fun ts pr m ht => absurd ht (Nat.not_lt_zero _)⟩
  | succ k ih =>
    constructor
    · intro t pr m ht
      cases t with
      | node lbl el r children =>
        have hsz : sizeOf children < k := by
          simp only [RTree.node.sizeOf_spec] at ht
          omega
        rw [snpNode.eq_def]
        cases pr with
        | none => exact ih.2 children (some r) m hsz
        | some prv =>
          by_cases hc : isConcrete r && isConcrete prv && decide (r ≠ prv)
          · simp only [hc, if_pos]
            rw [ih.2 children (some r) _ hsz, bumpN_keys]
          · simp only [hc, if_neg, if_false]
            exact ih.2 children (some r) m hsz
    · intro ts pr m ht
      cases ts with
      | nil => rfl
      | cons t ts' =>
        have hsz1 : sizeOf t < k := by
          simp only [List.cons.sizeOf_spec] at ht
          omega
        have hsz2 : sizeOf ts' < k := by
          simp only [List.cons.sizeOf_spec] at ht
          omega
        rw [snpList.eq_def]
        rw [ih.2 ts' pr _ hsz2, ih.1 t pr m hsz1]

theorem snpEffect (bl : ℕ) :
    ∀ n : ℕ,
      (∀ (t : RTree α) (pr : Option (Option Char)) (m : List (String × ℕ)) (l : String),
        sizeOf t < n →
          (l ∉ postLabels t → lookupS (snpNode bl pr m t) l = lookupS m l) ∧
            ((postLabels t).Nodup →
              lookupS (snpNode bl pr m t) l = lookupS m l ∨
                ∃ v, lookupS m l = some v ∧
                  lookupS (snpNode bl pr m t) l = some (v + bl))) ∧
      (∀ (ts : List (RTree α)) (pr : Option (Option Char)) (m : List (String × ℕ))
          (l : String), sizeOf ts < n →
          (l ∉ postLabelsList ts → lookupS (snpList bl pr m ts) l = lookupS m l) ∧
            ((postLabelsList ts).Nodup →
              lookupS (snpList bl pr m ts) l = lookupS m l ∨
                ∃ v, lookupS m l = some v ∧
                  lookupS (snpList bl pr m ts) l = some (v + bl))) := by
  intro n
  induction n with
  | zero =>
    exact ⟨fun t pr m l ht => absurd ht (Nat.not_lt_zero _),
      fun ts pr m l ht => absurd ht (Nat.not_lt_zero _)⟩
  | succ k ih =>
    constructor
    · intro t pr m l ht
      cases t with
      | node lbl el r children =>
        have hsz : sizeOf children < k := by
          simp only [RTree.node.sizeOf_spec] at ht
          omega
        have hpost : postLabels (RTree.node (α := α) lbl el r children) =
            postLabelsList children ++ [lbl] := rfl
        have key : ∀ M1 : List (String × ℕ),
            (lookupS M1 l = lookupS m l ∨
              (l = lbl ∧ lookupS M1 l = (lookupS m l).map (· + bl))) →
            (l ∉ postLabelsList children ++ [lbl] →
              lookupS (snpList bl (some r) M1 children) l = lookupS m l) ∧
              ((postLabelsList children ++ [lbl]).Nodup →
                lookupS (snpList bl (some r) M1 children) l = lookupS m l ∨
                  ∃ v, lookupS m l = some v ∧
                    lookupS (snpList bl (some r) M1 children) l = some (v + bl)) := by
          intro M1 hM1a
          constructor
          · intro hnot
            have hl1 : l ∉ postLabelsList children := fun h =>
              hnot (List.mem_append_left _ h)
            have hl2 : l ≠ lbl := fun h => hnot (List.mem_append_right _ (by simp [h]))
            rw [(ih.2 children (some r) M1 l hsz).1 hl1]
            rcases hM1a with h' | ⟨hlbl, _⟩
            · exact h'
            · exact absurd hlbl hl2
          · intro hnd
            rw [List.nodup_append] at hnd
            obtain ⟨hnd1, _, hdisj⟩ := hnd
            by_cases hl : l = lbl
            · have hnotch : l ∉ postLabelsList children := fun h =>
                hdisj h (by simp [hl])
              rw [(ih.2 children (some r) M1 l hsz).1 hnotch]
              rcases hM1a with h' | ⟨_, heq⟩
              · exact Or.inl h'
              · cases hm : lookupS m l with
                | none => rw [heq, hm]; exact Or.inl rfl
                | some v => rw [heq, hm]; exact Or.inr ⟨v, rfl, rfl⟩
            · have hm1l : lookupS M1 l = lookupS m l := by
                rcases hM1a with h' | ⟨hlbl, _⟩
                · exact h'
                · exact absurd hlbl hl
              rcases (ih.2 children (some r) M1 l hsz).2 hnd1 with h' | ⟨v, hv1, hv2⟩
              · rw [h', hm1l]
                exact Or.inl rfl
              · rw [hm1l] at hv1
                exact Or.inr ⟨v, hv1, hv2⟩
        cases pr with
        | none =>
          have hunf : snpNode bl none m (RTree.node (α := α) lbl el r children) =
              snpList bl (some r) m children := by
            rw [snpNode.eq_def]
          rw [hpost, hunf]
          exact key m (Or.inl rfl)
        | some prv =>
          by_cases hc : isConcrete r && isConcrete prv && decide (r ≠ prv)
          · have hunf : snpNode bl (some prv) m (RTree.node (α := α) lbl el r children) =
                snpList bl (some r) (bumpN m lbl bl) children := by
              rw [snpNode.eq_def]
              simp only [hc, if_pos]
            rw [hpost, hunf]
            refine key (bumpN m lbl bl) ?_
            by_cases hl : l = lbl
            · subst hl
              exact Or.inr ⟨rfl, bumpN_lookup_eq m l bl⟩
            · exact Or.inl (bumpN_lookup_ne bl hl)
          · have hunf : snpNode bl (some prv) m (RTree.node (α := α) lbl el r children) =
                snpList bl (some r) m children := by
              rw [snpNode.eq_def]
              have hc' : (isConcrete r && isConcrete prv && decide (r ≠ prv)) = false := by
                revert hc
                cases isConcrete r && isConcrete prv && decide (r ≠ prv) <;> simp
              simp [hc']
              rw [if_neg]
              intro hcontra
              apply hc
              simp only [Bool.and_eq_true, decide_eq_true_eq]
              exact hcontra
            rw [hpost, hunf]
            exact key m (Or.inl rfl)
    · intro ts pr m l ht
      cases ts with
      | nil => exact ⟨fun _ => rfl, fun _ => Or.inl rfl⟩
      | cons t ts' =>
        have hsz1 : sizeOf t < k := by
          simp only [List.cons.sizeOf_spec] at ht
          omega
        have hsz2 : sizeOf ts' < k := by
          simp only [List.cons.sizeOf_spec] at ht
          omega
        have hpost : postLabelsList (t :: ts' : List (RTree α)) =
            postLabels t ++ postLabelsList ts' := rfl
        have hunf : snpList bl pr m (t :: ts') =
            snpList bl pr (snpNode bl pr m t) ts' := rfl
        constructor
        · intro hnot
          rw [hpost] at hnot
          have hl1 : l ∉ postLabels t := fun h => hnot (List.mem_append_left _ h)
          have hl2 : l ∉ postLabelsList ts' := fun h => hnot (List.mem_append_right _ h)
          rw [hunf]
          rw [(ih.2 ts' pr _ l hsz2).1 hl2]
          exact (ih.1 t pr m l hsz1).1 hl1
        · intro hnd
          rw [hpost, List.nodup_append] at hnd
          obtain ⟨hnd1, hnd2, hdisj⟩ := hnd
          rw [hunf]
          by_cases hl : l ∈ postLabels t
          · have hl2 : l ∉ postLabelsList ts' := hdisj hl
            rw [(ih.2 ts' pr _ l hsz2).1 hl2]
            exact (ih.1 t pr m l hsz1).2 hnd1
          · have hframe := (ih.1 t pr m l hsz1).1 hl
            rcases (ih.2 ts' pr _ l hsz2).2 hnd2 with h' | ⟨v, hv1, hv2⟩
            · rw [h', hframe]
              exact Or.inl rfl
            · rw [hframe] at hv1
              exact Or.inr ⟨v, hv1, hv2⟩

end SnpLemmas

theorem applyWrites_frame (idx : String → ℕ) (bucket : List ℕ)
    (ws : List (String × Option Char)) :
    ∀ (aln : ℕ → ℕ → Option Char) (i j : ℕ), (∀ w ∈ ws, idx w.1 ≠ i) →
      applyWrites idx bucket aln ws i j = aln i j := by
  induction ws with
  | nil => intro aln i j _; rfl
  | cons w ws' ih =>
    intro aln i j h
    have hw : idx w.1 ≠ i := h w (List.mem_cons_self w ws')
    have hrest : ∀ w' ∈ ws', idx w'.1 ≠ i := fun w' hw' =>
      h w' (List.mem_cons_of_mem _ hw')
    unfold applyWrites
    rw [List.foldl_cons]
    have := ih (fun i' j' => if i' = idx w.1 ∧ j' ∈ bucket then w.2 else aln i' j') i j hrest
    unfold applyWrites at this
    rw [this]
    have hni : ¬(i = idx w.1 ∧ j ∈ bucket) := fun hc => hw hc.1.symm
    show (if i = idx w.1 ∧ j ∈ bucket then w.2 else aln i j) = aln i j
    rw [if_neg hni]

section RunLemmas

variable {α : Type} [LinearOrderedAddCommGroup α]

/-- A successful `reconstruct_alignment_column` run decomposes into its four
fallible stages. -/
theorem reconstruct_ok_destruct (logO : α → α) (rootLbl : String) (rootEl : α)
    (rootPij : Fin 4 → Fin 4 → α) (children : List (PTree α)) (names : List String)
    (bucket : List ℕ) (f : Fin 4 → α) (column : List Char) (cb : List Char)
    (snps : List (String × ℕ)) (ws : List (String × Option Char))
    (hok : reconstruct_alignment_column logO
        (PTree.node rootLbl rootEl rootPij children) names bucket f column cb =
      .ok (snps, ws)) :
    ∃ (anns : List (ATree α)) (rts : List (RTree α)) (seedR : Option Char)
      (g : RTree α),
      annList (buildBase names column) cb children = .ok anns ∧
        assignRList (rootPick cb (relaxLoop
          (fun _ endb => ((logO (f (mb endb)) : α) : WithBot α) + sumL anns endb) cb))
          anns = .ok rts ∧
        seedTiebreak (rts.enum.map (fun p => (p.2.edgeLength, p.1, p.2.r))) =
          .ok seedR ∧
        gapNode (buildBase names column) (RTree.node rootLbl rootEl seedR rts) =
          .ok (g, ws) ∧
        snps = snpNode bucket.length none (snpDict (postLabels g)) g := by
  rw [reconstruct_alignment_column] at hok
  cases h1 : annList (α := α) (buildBase names column) cb children with
  | error e => rw [h1, except_bind_error] at hok; cases hok
  | ok anns =>
    rw [h1, except_bind_ok] at hok
    dsimp only at hok
    cases h2 : assignRList (α := α) (rootPick cb (relaxLoop
        (fun _ endb => ((logO (f (mb endb)) : α) : WithBot α) + sumL anns endb) cb))
        anns with
    | error e => rw [h2, except_bind_error] at hok; cases hok
    | ok rts =>
      rw [h2, except_bind_ok] at hok
      cases h3 : seedTiebreak (α := α)
          (rts.enum.map (fun p => (p.2.edgeLength, p.1, p.2.r))) with
      | error e => rw [h3, except_bind_error] at hok; cases hok
      | ok seedR =>
        rw [h3, except_bind_ok] at hok
        cases h4 : gapNode (α := α) (buildBase names column)
            (RTree.node rootLbl rootEl seedR rts) with
        | error e => rw [h4, except_bind_error] at hok; cases hok
        | ok res =>
          rw [h4, except_bind_ok] at hok
          injection hok with hpair
          injection hpair with hsnps hws
          exact ⟨anns, rts, seedR, res.1, rfl, h2, h3, by rw [h4, ← hws], hsnps.symm⟩

end RunLemmas

/-! ## Theorems -/

/-- C7: `get_base_patterns` maps pattern vectors to buckets of column
indices such that every bucketed index is a valid column whose column vector
equals the bucket's key, every column index below `L` is in some bucket,
each bucket is strictly ascending, and distinct buckets are disjoint. -/
theorem claim_C7_pattern_partition (aln : List (List Char)) :
    (∀ e ∈ get_base_patterns aln, ∀ x ∈ e.2,
        x < (aln.headD []).length ∧ columnAt aln x = e.1) ∧
      (∀ x, x < (aln.headD []).length → ∃ e ∈ get_base_patterns aln, x ∈ e.2) ∧
      (∀ e ∈ get_base_patterns aln, e.2.Chain' (· < ·)) ∧
      (∀ e₁ ∈ get_base_patterns aln, ∀ e₂ ∈ get_base_patterns aln,
        e₁ ≠ e₂ → ∀ x, x ∈ e₁.2 → x ∉ e₂.2) := by
  have hmain := patternFold_good aln (aln.headD []).length
  obtain ⟨⟨hnd, hent⟩, hcov⟩ := hmain
  have hbp : get_base_patterns aln =
      (List.range (aln.headD []).length).foldl (patternStep aln) [] := rfl
  rw [hbp]
  refine ⟨fun e he x hx => (hent e he).1 x hx, hcov, fun e he => (hent e he).2.1, ?_⟩
  intro e₁ he₁ e₂ he₂ hne x hx₁ hx₂
  have hk₁ : columnAt aln x = e₁.1 := ((hent e₁ he₁).1 x hx₁).2
  have hk₂ : columnAt aln x = e₂.1 := ((hent e₂ he₂).1 x hx₂).2
  exact hne (List.inj_on_of_nodup_map hnd he₁ he₂ (hk₁ ▸ hk₂ ▸ rfl))

/-- C7 witness: on the alignment with rows "AA" and "AC" there are two
columns; column 0 lies in some bucket, and every bucket containing it has
key "AA" (the column-0 vector). -/
theorem claim_C7_witness :
    ∃ e ∈ get_base_patterns [['A', 'A'], ['A', 'C']], (0 : ℕ) ∈ e.2 :=
  (claim_C7_pattern_partition [['A', 'A'], ['A', 'C']]).2.1 0 (by decide)

/-- C1: in the post-order pass, for an internal non-root node `z` (children
`c :: cs`) visited with set order `cb` of `columnbases` and any parental
base `s ∈ cb`, the computed `L_z[s]` equals the maximum over `end ∈ cb` of
`log P_z[s→end] + Σ_child L_child[end]`, and `C_z[s]` is an `end ∈ cb`
attaining that maximum. -/
theorem claim_C1_internal_argmax {α : Type} [LinearOrderedAddCommGroup α]
    (base : List (String × Char)) (cb : List Char) (hnd : cb.Nodup)
    (lbl : String) (el : α) (pij : Fin 4 → Fin 4 → α) (c : PTree α)
    (cs : List (PTree α)) (a : ATree α)
    (hok : annNode base cb (PTree.node lbl el pij (c :: cs)) = .ok a)
    (s : Char) (hs : s ∈ cb) :
    a.L s = listMax (cb.map
        (fun e => ((pij (mb s) (mb e) : α) : WithBot α) + sumL a.children e)) ∧
      ∃ e ∈ cb, a.C s = some e ∧
        ((pij (mb s) (mb e) : α) : WithBot α) + sumL a.children e = a.L s := by
  have hok' := hok
  rw [annNode] at hok
  cases hanns : annList (α := α) base cb (c :: cs) with
  | error e => rw [hanns, except_bind_error] at hok; cases hok
  | ok anns =>
    rw [hanns, except_bind_ok] at hok
    cases hok
    simp only [ATree.L, ATree.C, ATree.children]
    have hmax := relaxLoop_max
      (fun start endb => ((pij (mb start) (mb endb) : α) : WithBot α) + sumL anns endb)
      hnd hs
    refine ⟨hmax.1, ?_⟩
    have hLne := annL_ne_bot base cb hnd
      (sizeOf (PTree.node lbl el pij (c :: cs)) + 1) _ _ (Nat.lt_succ_self _) hok' s hs
    simp only [ATree.L] at hLne
    rw [hmax.1] at hLne
    obtain ⟨x, hx, hfx⟩ := listMax_attained hLne
    have hss : (cb.find? (fun e =>
        decide (⊥ < ((pij (mb s) (mb e) : α) : WithBot α) + sumL anns e ∧
          ((pij (mb s) (mb e) : α) : WithBot α) + sumL anns e =
            listMax (cb.map (fun e => ((pij (mb s) (mb e) : α) : WithBot α) +
              sumL anns e))))).isSome := by
      refine List.find?_isSome.mpr ⟨x, hx, ?_⟩
      simp only [decide_eq_true_eq]
      have hfx' : ((pij (mb s) (mb x) : α) : WithBot α) + sumL anns x =
          listMax (cb.map
            (fun e => ((pij (mb s) (mb e) : α) : WithBot α) + sumL anns e)) := hfx
      refine ⟨?_, hfx⟩
      rw [hfx']
      exact Ne.bot_lt hLne
    obtain ⟨e, he⟩ := Option.isSome_iff_exists.mp hss
    have hmem := List.mem_of_find?_eq_some he
    have hpred := List.find?_some he
    simp only [decide_eq_true_eq] at hpred
    refine ⟨e, hmem, ?_, ?_⟩
    · rw [hmax.2, he]
    · rw [hmax.1]
      exact hpred.2

/-- C1 witness: on the internal node `Node_2 = (a:1, b:2)` with column
`['A', 'C']`, the hypotheses (distinct set order, successful post-order
visit, `'A' ∈ columnbases`) hold and the argmax property follows. -/
theorem claim_C1_witness :
    (['A', 'C'] : List Char).Nodup ∧ 'A' ∈ (['A', 'C'] : List Char) ∧
      (demoAnnA.L 'A' = listMax ((['A', 'C'] : List Char).map
          (fun e => ((pijConst (mb 'A') (mb e) : ℤ) : WithBot ℤ) +
            sumL demoAnnA.children e)) ∧
        ∃ e ∈ (['A', 'C'] : List Char), demoAnnA.C 'A' = some e ∧
          ((pijConst (mb 'A') (mb e) : ℤ) : WithBot ℤ) + sumL demoAnnA.children e =
            demoAnnA.L 'A') :=
  ⟨by decide, by decide,
    claim_C1_internal_argmax demoBase ['A', 'C'] (by decide) "Node_2" 1 pijConst
      demoLeafA [demoLeafB] demoAnnA rfl 'A' (by decide)⟩

/-- C8, amended: the relaxation kernel is a deterministic function of the
`columnbases` iteration order — `L[s]` is the maximum score and `C[s]` is
the FIRST base in the iteration order attaining it (Python's strict `>`
keeps the earliest winner), not necessarily the lexicographically smaller
base. -/
theorem claim_C8_order_determinism {α : Type} [LinearOrderedAddCommGroup α]
    (sc : Char → Char → WithBot α) (cb : List Char) (hnd : cb.Nodup)
    (s : Char) (hs : s ∈ cb) :
    (relaxLoop sc cb).1 s = listMax (cb.map (sc s)) ∧
      (relaxLoop sc cb).2 s =
        cb.find? (fun e => decide (⊥ < sc s e ∧ sc s e = listMax (cb.map (sc s)))) :=
  relaxLoop_max sc hnd hs

/-- C8 amended-claim witness: with the all-tied score function and iteration
order `['C', 'A']`, the winner is `'C'` — the first base in the order. -/
theorem claim_C8_witness :
    (['C', 'A'] : List Char).Nodup ∧ 'C' ∈ (['C', 'A'] : List Char) ∧
      ((relaxLoop demoSc ['C', 'A']).1 'C' =
          listMax ((['C', 'A'] : List Char).map (demoSc 'C')) ∧
        (relaxLoop demoSc ['C', 'A']).2 'C' =
          (['C', 'A'] : List Char).find? (fun e => decide (⊥ < demoSc 'C' e ∧
            demoSc 'C' e = listMax ((['C', 'A'] : List Char).map (demoSc 'C'))))) :=
  ⟨by decide, by decide,
    claim_C8_order_determinism demoSc ['C', 'A'] (by decide) 'C' (by decide)⟩

/-- C9: every write recorded by `reconstruct_alignment_column` targets the
row of an internal-node label, so applying the writes leaves every row whose
index differs from all internal-node rows — in particular every leaf row
under the injective name-to-row map of `jar` — unchanged at every column. -/
theorem claim_C9_leaf_rows_untouched {α : Type} [LinearOrderedAddCommGroup α]
    (logO : α → α) (rootLbl : String) (rootEl : α) (rootPij : Fin 4 → Fin 4 → α)
    (children : List (PTree α)) (names : List String) (bucket : List ℕ)
    (f : Fin 4 → α) (column : List Char) (cb : List Char)
    (snps : List (String × ℕ)) (ws : List (String × Option Char))
    (hok : reconstruct_alignment_column logO
        (PTree.node rootLbl rootEl rootPij children) names bucket f column cb =
      .ok (snps, ws)) :
    (∀ w ∈ ws,
        w.1 ∈ skelInternal (PTree.skel (PTree.node rootLbl rootEl rootPij children))) ∧
      ∀ (idx : String → ℕ) (aln : ℕ → ℕ → Option Char) (leafName : String),
        (∀ nl ∈ skelInternal (PTree.skel (PTree.node rootLbl rootEl rootPij children)),
          idx nl ≠ idx leafName) →
        ∀ j, applyWrites idx bucket aln ws (idx leafName) j = aln (idx leafName) j := by
  obtain ⟨anns, rts, seedR, g, h1, h2, h3, h4, h5⟩ :=
    reconstruct_ok_destruct logO rootLbl rootEl rootPij children names bucket f
      column cb snps ws hok
  have hann := (annSkel (buildBase names column) cb (sizeOf children + 1)).2
    children anns (Nat.lt_succ_self _) h1
  have hass := (assignSkel (sizeOf anns + 1)).2 anns
    (rootPick cb (relaxLoop
      (fun _ endb => ((logO (f (mb endb)) : α) : WithBot α) + sumL anns endb) cb))
    rts (Nat.lt_succ_self _) h2
  have hgap := (gapSkel (buildBase names column)
      (sizeOf (RTree.node rootLbl rootEl seedR rts) + 1)).1
    (RTree.node rootLbl rootEl seedR rts) g ws (Nat.lt_succ_self _) h4
  have hsub : ∀ w ∈ ws, w.1 ∈ skelInternal (Skel.node rootLbl (PTree.skelList children)) := by
    intro w hw
    have hmem := hgap.2 w hw
    simp only [RTree.skel] at hmem
    rw [hass, hann] at hmem
    exact hmem
  have hskel : PTree.skel (PTree.node rootLbl rootEl rootPij children) =
      Skel.node rootLbl (PTree.skelList children) := rfl
  constructor
  · rw [hskel]
    exact hsub
  · intro idx aln leafName hne j
    refine applyWrites_frame idx bucket ws aln _ j ?_
    intro w hw
    exact hne w.1 (hskel ▸ hsub w hw)

/-- C9 witness: on the two-leaf tree with column `['A', 'C']`, the run
succeeds writing only the seed row `Node_1`, and the leaf row of `a` keeps
its prior cell under a map sending `Node_1` and `a` to different rows. -/
theorem claim_C9_witness :
    applyWrites (fun s => if s = "Node_1" then 2 else if s = "a" then 0 else 1) [0]
        (fun _ _ => some '?') [("Node_1", some 'C')]
        ((fun s : String => if s = "Node_1" then 2 else if s = "a" then 0 else 1) "a") 0 =
      (fun _ _ => some '?')
        ((fun s : String => if s = "Node_1" then 2 else if s = "a" then 0 else 1) "a") 0 :=
  (claim_C9_leaf_rows_untouched (fun x : ℤ => x) "Node_1" 0 pijConst
      [PTree.node "a" 1 pijDiag [], PTree.node "b" 2 pijDiag []] ["a", "b"] [0]
      (fun _ => 0) ['A', 'C'] ['A', 'C'] [("a", 1), ("b", 0), ("Node_1", 0)]
      [("Node_1", some 'C')] (by decide)).2
    (fun s => if s = "Node_1" then 2 else if s = "a" then 0 else 1)
    (fun _ _ => some '?') "a" (by decide) 0

/-- C10: for a successful run on a tree with distinct node labels, the
returned `node_snps` map has exactly the tree's node labels as keys (one
entry per node — leaves, internal nodes and the seed), every value is `0`
or one bucket length (hence a multiple of the bucket size), and the seed
node's entry is `0`. -/
theorem claim_C10_snp_invariants {α : Type} [LinearOrderedAddCommGroup α]
    (logO : α → α) (rootLbl : String) (rootEl : α) (rootPij : Fin 4 → Fin 4 → α)
    (children : List (PTree α)) (names : List String) (bucket : List ℕ)
    (f : Fin 4 → α) (column : List Char) (cb : List Char)
    (snps : List (String × ℕ)) (ws : List (String × Option Char))
    (hok : reconstruct_alignment_column logO
        (PTree.node rootLbl rootEl rootPij children) names bucket f column cb =
      .ok (snps, ws))
    (hnd : (skelAll (PTree.skel (PTree.node rootLbl rootEl rootPij children))).Nodup) :
    snps.map Prod.fst =
        skelAll (PTree.skel (PTree.node rootLbl rootEl rootPij children)) ∧
      (∀ p ∈ snps, ∃ kk, kk ≤ 1 ∧ p.2 = kk * bucket.length) ∧
      lookupS snps rootLbl = some 0 := by
  obtain ⟨anns, rts, seedR, g, h1, h2, h3, h4, h5⟩ :=
    reconstruct_ok_destruct logO rootLbl rootEl rootPij children names bucket f
      column cb snps ws hok
  have hann := (annSkel (buildBase names column) cb (sizeOf children + 1)).2
    children anns (Nat.lt_succ_self _) h1
  have hass := (assignSkel (sizeOf anns + 1)).2 anns
    (rootPick cb (relaxLoop
      (fun _ endb => ((logO (f (mb endb)) : α) : WithBot α) + sumL anns endb) cb))
    rts (Nat.lt_succ_self _) h2
  have hgap := (gapSkel (buildBase names column)
      (sizeOf (RTree.node rootLbl rootEl seedR rts) + 1)).1
    (RTree.node rootLbl rootEl seedR rts) g ws (Nat.lt_succ_self _) h4
  have hgskel : g.skel = Skel.node rootLbl (PTree.skelList children) := by
    rw [hgap.1]
    simp only [RTree.skel]
    rw [hass, hann]
  have hpostg : postLabels g =
      skelAll (PTree.skel (PTree.node rootLbl rootEl rootPij children)) := by
    rw [(postLabels_skel (sizeOf g + 1)).1 g (Nat.lt_succ_self _), hgskel]
    rfl
  have hndg : (postLabels g).Nodup := by
    rw [hpostg]
    exact hnd
  have hkeys : snps.map Prod.fst = postLabels g := by
    rw [h5]
    rw [(snpKeys bucket.length (sizeOf g + 1)).1 g none (snpDict (postLabels g))
      (Nat.lt_succ_self _)]
    rw [snpDict_of_nodup hndg, List.map_map]
    have hcomp : (Prod.fst ∘ fun l : String => (l, (0 : ℕ))) = id := rfl
    rw [hcomp, List.map_id]
  have hdict : ∀ l ∈ postLabels g, lookupS (snpDict (postLabels g)) l = some 0 := by
    intro l hl
    rw [snpDict_of_nodup hndg]
    have hmem : (l, 0) ∈ (postLabels g).map (fun l => (l, 0)) :=
      List.mem_map.mpr ⟨l, hl, rfl⟩
    have hndk : (((postLabels g).map (fun l => (l, 0))).map Prod.fst).Nodup := by
      rw [List.map_map]
      have hcomp : (Prod.fst ∘ fun l : String => (l, (0 : ℕ))) = id := rfl
      rw [hcomp, List.map_id]
      exact hndg
    exact lookupS_mem_nodup hndk hmem
  refine ⟨by rw [hkeys, hpostg], ?_, ?_⟩
  · intro p hp
    have hndkeys : (snps.map Prod.fst).Nodup := by
      rw [hkeys]
      exact hndg
    have hlook : lookupS snps p.1 = some p.2 := lookupS_mem_nodup hndkeys hp
    have hpkey : p.1 ∈ postLabels g := by
      rw [← hkeys]
      exact List.mem_map.mpr ⟨p, hp, rfl⟩
    have heff := ((snpEffect bucket.length (sizeOf g + 1)).1 g none
      (snpDict (postLabels g)) p.1 (Nat.lt_succ_self _)).2 hndg
    rw [← h5] at heff
    rcases heff with h' | ⟨v, hv1, hv2⟩
    · rw [hlook, hdict p.1 hpkey] at h'
      injection h' with h''
      exact ⟨0, by omega, by simp [h'']⟩
    · rw [hdict p.1 hpkey] at hv1
      injection hv1 with hv1'
      rw [hlook] at hv2
      injection hv2 with hv2'
      exact ⟨1, le_refl 1, by rw [hv2', ← hv1']; ring⟩
  · cases g with
    | node glbl gel gr gcs =>
      have hlbl : glbl = rootLbl := by
        simp only [RTree.skel] at hgskel
        injection hgskel
      subst hlbl
      have hunf : snps = snpList bucket.length (some gr)
          (snpDict (postLabels (RTree.node (α := α) glbl gel gr gcs))) gcs := by
        rw [h5, snpNode.eq_def]
      have hpostsplit : postLabels (RTree.node (α := α) glbl gel gr gcs) =
          postLabelsList gcs ++ [glbl] := rfl
      have hnotin : glbl ∉ postLabelsList gcs := by
        have := hndg
        rw [hpostsplit, List.nodup_append] at this
        exact fun h => this.2.2 h (List.mem_singleton.mpr rfl)
      have hframe := ((snpEffect bucket.length (sizeOf gcs + 1)).2 gcs (some gr)
        (snpDict (postLabels (RTree.node (α := α) glbl gel gr gcs))) glbl
        (Nat.lt_succ_self _)).1 hnotin
      rw [hunf, hframe]
      exact hdict glbl (by rw [hpostsplit]; exact List.mem_append_right _ (by simp))

/-- C10 witness: the two-leaf run returns one entry per node
(`a`, `b`, `Node_1`), values `0` or the bucket size `1`, and `0` at the
seed. -/
theorem claim_C10_witness :
    ([("a", 1), ("b", 0), ("Node_1", 0)] : List (String × ℕ)).map Prod.fst =
        skelAll (PTree.skel (PTree.node "Node_1" (0 : ℤ) pijConst
          [PTree.node "a" 1 pijDiag [], PTree.node "b" 2 pijDiag []])) ∧
      (∀ p ∈ ([("a", 1), ("b", 0), ("Node_1", 0)] : List (String × ℕ)),
        ∃ kk, kk ≤ 1 ∧ p.2 = kk * ([0] : List ℕ).length) ∧
      lookupS ([("a", 1), ("b", 0), ("Node_1", 0)] : List (String × ℕ)) "Node_1" =
        some 0 :=
  claim_C10_snp_invariants (fun x : ℤ => x) "Node_1" 0 pijConst
    [PTree.node "a" 1 pijDiag [], PTree.node "b" 2 pijDiag []] ["a", "b"] [0]
    (fun _ => 0) ['A', 'C'] ['A', 'C'] [("a", 1), ("b", 0), ("Node_1", 0)]
    [("Node_1", some 'C')] (by decide) (by decide)

/-- C2, code evaluated at the failing input: with `f = (1,1,1,1)` and
`r = (1,2,3,4,5,6)` in the documented order (AC, AG, AT, CG, CT, GT), the
claim demands `Q[A][C] = π[A]·ρ(AC) = 1·r₀ = 1`, but `create_rate_matrix`
returns `Q[A][C] = f₀·r₁ = 2` (row A of the source uses `r[1], r[2], r[3]`
instead of `r[0], r[1], r[2]`), while row C uses `Q[C][A] = f₁·r₀ = 1`, so
no symmetric pair coefficient can describe both entries. -/
theorem claim_C2_row_A_shifted :
    create_rate_matrix (fun _ => (1 : ℚ)) (fun i => (i.val + 1 : ℚ)) 0 1 = 2 ∧
      (1 : ℚ) * (fun i : Fin 6 => (i.val + 1 : ℚ)) 0 = 1 ∧
      create_rate_matrix (fun _ => (1 : ℚ)) (fun i => (i.val + 1 : ℚ)) 1 0 = 1 ∧
      (2 : ℚ) ≠ 1 := by
  refine ⟨?_, ?_, ?_, ?_⟩ <;> norm_num [create_rate_matrix, rate_matrix_offdiag]

/-- C3, code evaluated at the failing input: for every rate matrix,
`calculate_pij` at branch length `0` returns the probability-space identity
matrix — `1` on the diagonal (the claim demands `0`) and `0` off the diagonal
(`0` is not below achievable path scores, which are sums of log
probabilities such as `-1`) — instead of the log-space limit matrix. -/
theorem claim_C3_zero_length_not_log (logexpm : ℚ → (Fin 4 → Fin 4 → ℚ) → (Fin 4 → Fin 4 → ℚ))
    (Q : Fin 4 → Fin 4 → ℚ) :
    calculate_pij logexpm 0 Q 0 0 = 1 ∧ calculate_pij logexpm 0 Q 0 1 = 0 ∧
      (1 : ℚ) ≠ 0 ∧ ¬((0 : ℚ) < -1) := by
  refine ⟨?_, ?_, by norm_num, by norm_num⟩ <;> simp [calculate_pij]

/-- C4, code evaluated at the failing input: with distinct root-child edge
lengths (1 and 2) the seed adopts the `r` of the larger-edge child `b`
(`'C'`, the recorded seed-row write), but when the two children share edge
length 1 the sort of `[edge_length, child, child.r]` triples compares two
dendropy `Node` objects and raises `TypeError` — the tiebreak fails instead
of resolving by tuple order. -/
theorem claim_C4_seed_tiebreak_crashes :
    reconstruct_alignment_column (fun x : ℤ => x) twoLeafTree ["a", "b"] [0]
        (fun _ => 0) ['A', 'C'] ['A', 'C'] =
      .ok ([("a", 1), ("b", 0), ("Node_1", 0)], [("Node_1", some 'C')]) ∧
      reconstruct_alignment_column (fun x : ℤ => x) tiedTree ["a", "b"] [0]
        (fun _ => 0) ['A', 'C'] ['A', 'C'] = .error .typeError := by
  constructor <;> decide

/-- C5, code evaluated at the failing input: on the all-gap column
`['-', '-']` (whose `columnbases` set is empty, the only valid iteration
order being `[]`), `reconstruct_alignment_column` raises `KeyError` — the
pre-order pass evaluates `node.C[None]` — instead of filling the column with
gaps and returning zero SNP contributions. -/
theorem claim_C5_all_gap_keyerror :
    reconstruct_alignment_column (fun x : ℤ => x) twoLeafTree ["a", "b"] [0]
        (fun _ => 0) ['-', '-'] [] = .error .keyError ∧
      validOrder ['-', '-'] [] := by
  refine ⟨by decide, by decide, fun c => ⟨by simp, ?_⟩⟩
  rintro ⟨h1, h2⟩
  fin_cases h1 <;> simp [fourBases] at h2

/-- C8, counterexample: `['A', 'C']` and `['C', 'A']` are both valid
iteration orders of the `columnbases` set of the column `['A', 'C']` (Python
set order is hash-seed dependent), yet on `chainTree` the two orders produce
different SNP maps and different output-alignment writes: the tie at the
root is resolved to whichever base the set yields first, not to the
lexicographically smaller base. -/
theorem claim_C8_counterexample :
    validOrder ['A', 'C'] ['A', 'C'] ∧ validOrder ['A', 'C'] ['C', 'A'] ∧
      reconstruct_alignment_column (fun _ : ℤ => 0) chainTree ["a", "b"] [0]
          (fun _ => 0) ['A', 'C'] ['A', 'C'] ≠
        reconstruct_alignment_column (fun _ : ℤ => 0) chainTree ["a", "b"] [0]
          (fun _ => 0) ['A', 'C'] ['C', 'A'] := by
  refine ⟨⟨by decide, fun c => ⟨fun h => ?_, fun h => h.1⟩⟩,
    ⟨by decide, fun c => ⟨fun h => ?_, fun h => ?_⟩⟩, by decide⟩
  · fin_cases h <;> exact ⟨by decide, by decide⟩
  · fin_cases h <;> exact ⟨by decide, by decide⟩
  · obtain ⟨h1, _⟩ := h
    fin_cases h1 <;> decide

/-- C6, counterexample: at base frequencies that are all `-1` (negative, and
summing to `-4` rather than `1`) the construction does not fail with
`BadModel`; `create_rate_matrix` has no validation at all and returns the
assembled matrix, here with `Q[A][C] = -1`. -/
theorem claim_C6_counterexample :
    create_rate_matrix (fun _ => (-1 : ℚ)) (fun _ => 1) 0 1 = -1 := by
  norm_num [create_rate_matrix, rate_matrix_offdiag]

/-- C6, amended: rate-matrix construction never fails — the source contains
no `BadModel` (or any other) check — and for every input, well-formed or
not, it returns a matrix each of whose rows sums to zero. -/
theorem claim_C6_no_validation (f : Fin 4 → ℚ) (r : Fin 6 → ℚ) (i : Fin 4) :
    create_rate_matrix f r i 0 + create_rate_matrix f r i 1 +
      create_rate_matrix f r i 2 + create_rate_matrix f r i 3 = 0 := by
  fin_cases i <;> simp [create_rate_matrix, rate_matrix_offdiag] <;> ring

end Gubbins
